import Mathlib

/-!
Verification of the AMP (Asynchronous Messaging Protocol) implementation:
the frame codec (V1 and V2 wire variants), the frame classifier, the
reply-ticket, the write-loop tag allocator, the reply-map tag matching, and
the write/read-loop confirmation handshake.

Bytes are modelled as natural numbers (the wire values 0..255); buffers are
lists of bytes.  Machine integers (`u16` length prefixes, the `u64` tag
counter) are naturals with explicit bounds or reductions modulo `2 ^ 64`
where overflow matters.  Fallible operations return `Except`/`Option`.
-/

namespace Amp

deriving instance DecidableEq for Except

/-- A decoded AMP box: ordered key/value pairs of byte strings
(`Vec<(Bytes, Bytes)>` on the Rust side). -/
abbrev Box := List (List Nat × List Nat)

/-- `CodecError` from `codecs.rs` (the I/O variant carries no information
we model). -/
inductive CodecError where
  | ioError
  | KeyTooLong
  | EmptyKey
  | ValueTooLong
deriving DecidableEq, Repr

/-- Big-endian bytes of a `u16` length prefix (`u16::to_be_bytes`). -/
def u16be (n : Nat) : List Nat := [n / 256 % 256, n % 256]

/-- Decoder state (`enum State { Key, Value }` in `src/codecs.rs`). -/
inductive DState where
  | Key
  | Value
deriving DecidableEq, Repr

/-- The `Dec` decoder's persistent fields: current state, the key read by
the last `Key` step, and the accumulated frame. -/
structure DecSt where
  state : DState
  key : List Nat
  frame : Box
deriving DecidableEq, Repr

/-- The V1 `Dec::decode` loop (`src/codecs.rs`), with explicit fuel so the
function is structural.  Each loop iteration either returns or consumes at
least two bytes from the buffer, so `buf.length + 1` fuel always suffices
(see `decodeF_fuel_irrel`).  Returns the emitted box (if a frame was
completed), the decoder state, and the unconsumed remainder of the buffer:
`Ok(None)` ("need more bytes") leaves the partial segment in the buffer. -/
def decodeF : Nat → DecSt → List Nat →
    Except CodecError (Option Box × DecSt × List Nat)
  | 0, st, buf => .ok (none, st, buf)
  | _ + 1, st, [] => .ok (none, st, [])
  | _ + 1, st, [b] => .ok (none, st, [b])
  | fuel + 1, st, b0 :: b1 :: rest =>
    match st.state with
    | .Key =>
      if b0 * 256 + b1 = 0 then
        .ok (some st.frame, ⟨.Key, st.key, []⟩, rest)
      else if 255 < b0 * 256 + b1 then
        .error .KeyTooLong
      else if b0 * 256 + b1 ≤ rest.length then
        decodeF fuel ⟨.Value, rest.take (b0 * 256 + b1), st.frame⟩
          (rest.drop (b0 * 256 + b1))
      else
        .ok (none, st, b0 :: b1 :: rest)
    | .Value =>
      if b0 * 256 + b1 ≤ rest.length then
        decodeF fuel
          ⟨.Key, [], st.frame ++ [(st.key, rest.take (b0 * 256 + b1))]⟩
          (rest.drop (b0 * 256 + b1))
      else
        .ok (none, st, b0 :: b1 :: rest)

/-- One call of V1 `Dec::decode` on a buffer. -/
def Dec.decode (st : DecSt) (buf : List Nat) :
    Except CodecError (Option Box × DecSt × List Nat) :=
  decodeF (buf.length + 1) st buf

/-- The fresh decoder (`Dec::new()` / `Default`). -/
def Dec.new : DecSt := ⟨.Key, [], []⟩

/-- V1 `Enc::encode` on one key/value pair: the validation checks and the
emitted `klen key vlen value` bytes (`src/codecs.rs` lines 127-147). -/
def encodePair (k v : List Nat) : Except CodecError (List Nat) :=
  if k.isEmpty then .error .EmptyKey
  else if 255 < k.length then .error .KeyTooLong
  else if 65535 < v.length then .error .ValueTooLong
  else .ok (u16be k.length ++ k ++ u16be v.length ++ v)

/-- V1 `Enc::encode`: every pair in order, then the closing `0x0000`. -/
def Enc.encode : Box → Except CodecError (List Nat)
  | [] => .ok (u16be 0)
  | (k, v) :: rest => do
    let e ← encodePair k v
    let r ← Enc.encode rest
    .ok (e ++ r)

/-- Validity of a box under V1: keys 1..255 bytes, values 0..65535 bytes. -/
def ValidBox (b : Box) : Prop :=
  ∀ p ∈ b, 1 ≤ p.1.length ∧ p.1.length ≤ 255 ∧ p.2.length ≤ 65535

instance : DecidablePred ValidBox := fun b =>
  inferInstanceAs (Decidable (∀ p ∈ b, _))

example :
    Enc.encode [([95, 97, 115, 107], [50, 51])] =
      .ok [0, 4, 95, 97, 115, 107, 0, 2, 50, 51, 0, 0] := by decide

example :
    Dec.decode Dec.new [0, 4, 95, 97, 115, 107, 0, 2, 50, 51, 0, 0] =
      .ok (some [([95, 97, 115, 107], [50, 51])], Dec.new, []) := by decide

example : Dec.decode Dec.new [0, 4, 95, 97] =
    .ok (none, Dec.new, [0, 4, 95, 97]) := by decide

/-! ### Fuel irrelevance and round-trip for the V1 codec -/

theorem decodeF_fuel_irrel :
    ∀ (fuel fuel' : Nat) (st : DecSt) (buf : List Nat),
      buf.length < fuel → buf.length < fuel' →
      decodeF fuel st buf = decodeF fuel' st buf := by
  intro fuel
  induction fuel with
  | zero => intro fuel' st buf h; omega
  | succ f ih =>
    intro fuel' st buf h h'
    match buf, fuel' with
    | [], f' + 1 => rfl
    | [b], f' + 1 => rfl
    | b0 :: b1 :: rest, f' + 1 =>
      simp only [decodeF]
      cases st.state with
      | Key =>
        by_cases h0 : b0 * 256 + b1 = 0
        · simp [h0]
        · by_cases hlim : 255 < b0 * 256 + b1
          · simp [h0, hlim]
          · by_cases hlen : b0 * 256 + b1 ≤ rest.length
            · simp only [h0, hlim, hlen, if_true, if_false]
              apply ih
              · simp at h ⊢; omega
              · simp at h' ⊢; omega
            · simp [h0, hlim, hlen]
      | Value =>
        by_cases hlen : b0 * 256 + b1 ≤ rest.length
        · simp only [hlen, if_true]
          apply ih
          · simp at h ⊢; omega
          · simp at h' ⊢; omega
        · simp [hlen]

/-- The two big-endian bytes of a length prefix recombine to the length. -/
theorem u16be_val (n : Nat) (h : n ≤ 65535) :
    (n / 256 % 256) * 256 + n % 256 = n := by omega

/-- The encoder's byte emission, one pair at a time, without the closing
`0x0000`. -/
def encBody : Box → List Nat
  | [] => []
  | (k, v) :: rest =>
    u16be k.length ++ k ++ u16be v.length ++ v ++ encBody rest

theorem encode_ok (b : Box) (hb : ValidBox b) :
    Enc.encode b = .ok (encBody b ++ [0, 0]) := by
  induction b with
  | nil => rfl
  | cons p rest ih =>
    obtain ⟨k, v⟩ := p
    obtain ⟨hk1, hk2, hv⟩ := hb (k, v) (by simp)
    have hrest : ValidBox rest := fun q hq => hb q (by simp [hq])
    have hke : ¬ k.isEmpty := by
      cases k with
      | nil => simp at hk1
      | cons _ _ => simp
    dsimp only at hk2 hv
    simp only [Enc.encode, encodePair, hke, if_false, Nat.not_lt.mpr hk2,
      Nat.not_lt.mpr hv, ih hrest]
    simp [encBody, u16be, List.append_assoc, Bind.bind, Except.bind]

theorem decodeF_encBody (b : Box) (hb : ValidBox b) :
    ∀ (f0 : Box) (k0 tail : List Nat) (fuel : Nat),
      (encBody b ++ 0 :: 0 :: tail).length < fuel →
      decodeF fuel ⟨.Key, k0, f0⟩ (encBody b ++ 0 :: 0 :: tail) =
        .ok (some (f0 ++ b), ⟨.Key, if b.isEmpty then k0 else [], []⟩, tail) := by
  induction b with
  | nil =>
    intro f0 k0 tail fuel hf
    match fuel, hf with
    | f + 1, _ => simp [encBody, decodeF]
  | cons p rest ih =>
    obtain ⟨k, v⟩ := p
    obtain ⟨hk1, hk2, hv⟩ := hb (k, v) (by simp)
    dsimp only at hk1 hk2 hv
    have hrest : ValidBox rest := fun q hq => hb q (by simp [hq])
    intro f0 k0 tail fuel hf
    have hfuel : 4 < fuel := by
      simp only [encBody, u16be, List.length_append, List.length_cons] at hf
      omega
    match fuel, hfuel with
    | fuel + 1, _ =>
    have hbuf : encBody ((k, v) :: rest) ++ 0 :: 0 :: tail =
        (k.length / 256 % 256) :: (k.length % 256) ::
          (k ++ ((v.length / 256 % 256) :: (v.length % 256) ::
            (v ++ (encBody rest ++ 0 :: 0 :: tail)))) := by
      simp [encBody, u16be, List.append_assoc]
    rw [hbuf]
    rw [hbuf] at hf
    have hkval : (k.length / 256 % 256) * 256 + k.length % 256 = k.length :=
      u16be_val _ (by omega)
    have hk0 : ¬ ((k.length / 256 % 256) * 256 + k.length % 256 = 0) := by
      omega
    have hklim : ¬ (255 < (k.length / 256 % 256) * 256 + k.length % 256) := by
      omega
    have hklen : (k.length / 256 % 256) * 256 + k.length % 256 ≤
        (k ++ ((v.length / 256 % 256) :: (v.length % 256) ::
          (v ++ (encBody rest ++ 0 :: 0 :: tail)))).length := by
      rw [hkval]
      simp
    simp only [decodeF, hk0, hklim, hklen, if_true, if_false]
    rw [hkval]
    rw [List.take_left' rfl, List.drop_left' rfl]
    have hvval : (v.length / 256 % 256) * 256 + v.length % 256 = v.length :=
      u16be_val _ hv
    have hvlen : (v.length / 256 % 256) * 256 + v.length % 256 ≤
        (v ++ (encBody rest ++ 0 :: 0 :: tail)).length := by
      rw [hvval]
      simp
    have hfuel2 : 2 < fuel := by
      simp only [List.length_append, List.length_cons] at hf
      omega
    match fuel, hfuel2 with
    | fuel + 1, _ =>
    simp only [decodeF, hvlen, if_true]
    rw [hvval]
    rw [List.take_left' rfl, List.drop_left' rfl]
    have htail : (encBody rest ++ 0 :: 0 :: tail).length < fuel := by
      simp only [List.length_append, List.length_cons] at hf ⊢
      omega
    rw [ih hrest (f0 ++ [(k, v)]) [] tail fuel htail]
    simp

/-! ### Resumability of the V1 decoder -/

theorem decodeF_length_le :
    ∀ (fuel : Nat) (st : DecSt) (buf : List Nat) (r : Option Box)
      (st' : DecSt) (rest : List Nat),
      decodeF fuel st buf = .ok (r, st', rest) → rest.length ≤ buf.length := by
  intro fuel
  induction fuel with
  | zero =>
    intro st buf r st' rest h
    obtain ⟨-, -, h3⟩ : none = r ∧ st = st' ∧ buf = rest := by
      simpa [decodeF] using h
    simp [← h3]
  | succ f ih =>
    intro st buf r st' rest h
    match buf with
    | [] =>
      obtain ⟨-, -, h3⟩ : none = r ∧ st = st' ∧ ([] : List Nat) = rest := by
        simpa [decodeF] using h
      simp [← h3]
    | [b] =>
      obtain ⟨-, -, h3⟩ : none = r ∧ st = st' ∧ [b] = rest := by
        simpa [decodeF] using h
      simp [← h3]
    | b0 :: b1 :: more =>
      obtain ⟨state, key, frame⟩ := st
      cases state with
      | Key =>
        by_cases h0 : b0 * 256 + b1 = 0
        · obtain ⟨-, -, h3⟩ : some frame = r ∧
              (⟨.Key, key, []⟩ : DecSt) = st' ∧ more = rest := by
            simpa [decodeF, h0] using h
          rw [← h3]
          simp
          omega
        · by_cases hlim : 255 < b0 * 256 + b1
          · simp [decodeF, h0, hlim] at h
          · by_cases hlen : b0 * 256 + b1 ≤ more.length
            · simp only [decodeF, h0, hlim, hlen, if_true, if_false] at h
              have := ih _ _ _ _ _ h
              simp only [List.length_drop] at this
              simp only [List.length_cons]
              omega
            · obtain ⟨-, -, h3⟩ : none = r ∧
                  (⟨.Key, key, frame⟩ : DecSt) = st' ∧
                  b0 :: b1 :: more = rest := by
                simpa [decodeF, h0, hlim, hlen] using h
              rw [← h3]
      | Value =>
        by_cases hlen : b0 * 256 + b1 ≤ more.length
        · simp only [decodeF, hlen, if_true] at h
          have := ih _ _ _ _ _ h
          simp only [List.length_drop] at this
          simp only [List.length_cons]
          omega
        · obtain ⟨-, -, h3⟩ : none = r ∧
              (⟨.Value, key, frame⟩ : DecSt) = st' ∧
              b0 :: b1 :: more = rest := by
            simpa [decodeF, hlen] using h
          rw [← h3]

theorem decodeF_extend (fuel : Nat) :
    ∀ (st : DecSt) (buf extra : List Nat) (fuel' : Nat),
      buf.length < fuel → buf.length + extra.length < fuel' →
      (∀ e, decodeF fuel st buf = .error e →
        decodeF fuel' st (buf ++ extra) = .error e) ∧
      (∀ f st' rest, decodeF fuel st buf = .ok (some f, st', rest) →
        decodeF fuel' st (buf ++ extra) = .ok (some f, st', rest ++ extra)) ∧
      (∀ st' rest, decodeF fuel st buf = .ok (none, st', rest) →
        decodeF fuel' st (buf ++ extra) = decodeF fuel' st' (rest ++ extra)) := by
  induction fuel with
  | zero => intro st buf extra fuel' h; omega
  | succ f ih =>
    intro st buf extra fuel' h h'
    match buf, fuel', h' with
    | [], f' + 1, h' =>
      refine ⟨?_, ?_, ?_⟩
      · intro e he; simp [decodeF] at he
      · intro fr st' rest he; simp [decodeF] at he
      · intro st' rest he
        simp only [decodeF] at he
        obtain ⟨h1, h2⟩ : st = st' ∧ ([] : List Nat) = rest := by
          simpa using he
        rw [← h1, ← h2]
    | [b], f' + 1, h' =>
      refine ⟨?_, ?_, ?_⟩
      · intro e he; simp [decodeF] at he
      · intro fr st' rest he; simp [decodeF] at he
      · intro st' rest he
        simp only [decodeF] at he
        obtain ⟨h1, h2⟩ : st = st' ∧ [b] = rest := by simpa using he
        rw [← h1, ← h2]
    | b0 :: b1 :: rest, f' + 1, h' =>
      obtain ⟨state, key, frame⟩ := st
      cases state with
      | Key =>
        by_cases h0 : b0 * 256 + b1 = 0
        · refine ⟨?_, ?_, ?_⟩
          · intro e he; simp [decodeF, h0] at he
          · intro fr st' rest' he
            simp only [decodeF, h0, if_true] at he
            obtain ⟨h1, h2, h3⟩ : frame = fr ∧
                (⟨.Key, key, []⟩ : DecSt) = st' ∧ rest = rest' := by
              simpa using he
            simp [decodeF, h0, List.cons_append, ← h1, ← h2, ← h3]
          · intro st' rest' he; simp [decodeF, h0] at he
        · by_cases hlim : 255 < b0 * 256 + b1
          · refine ⟨?_, ?_, ?_⟩
            · intro e he
              simp only [decodeF, h0, hlim, if_true, if_false] at he
              obtain h1 : CodecError.KeyTooLong = e := by simpa using he
              simp [decodeF, h0, hlim, List.cons_append, ← h1]
            · intro fr st' rest' he; simp [decodeF, h0, hlim] at he
            · intro st' rest' he; simp [decodeF, h0, hlim] at he
          · by_cases hlen : b0 * 256 + b1 ≤ rest.length
            · have hlen' : b0 * 256 + b1 ≤ (rest ++ extra).length := by
                simp; omega
              have hstep :
                  decodeF (f' + 1) ⟨.Key, key, frame⟩ ((b0 :: b1 :: rest) ++ extra) =
                    decodeF f' ⟨.Value, rest.take (b0 * 256 + b1), frame⟩
                      (rest.drop (b0 * 256 + b1) ++ extra) := by
                simp only [List.cons_append, List.append_eq, decodeF, h0, hlim,
                  hlen', if_true, if_false]
                rw [List.take_append_of_le_length hlen,
                  List.drop_append_of_le_length hlen]
              have hrec := ih ⟨.Value, rest.take (b0 * 256 + b1), frame⟩
                (rest.drop (b0 * 256 + b1)) extra f'
                (by simp at h ⊢; omega) (by simp at h' ⊢; omega)
              refine ⟨?_, ?_, ?_⟩
              · intro e he
                simp only [decodeF, h0, hlim, hlen, if_true, if_false] at he
                rw [hstep]
                exact hrec.1 e he
              · intro fr st' rest' he
                simp only [decodeF, h0, hlim, hlen, if_true, if_false] at he
                rw [hstep]
                exact hrec.2.1 fr st' rest' he
              · intro st' rest' he
                simp only [decodeF, h0, hlim, hlen, if_true, if_false] at he
                rw [hstep]
                rw [hrec.2.2 st' rest' he]
                have hle := decodeF_length_le f _ _ none st' rest' he
                simp only [List.length_drop] at hle
                apply decodeF_fuel_irrel
                · simp at h' ⊢; omega
                · simp at h' ⊢; omega
            · refine ⟨?_, ?_, ?_⟩
              · intro e he; simp [decodeF, h0, hlim, hlen] at he
              · intro fr st' rest' he; simp [decodeF, h0, hlim, hlen] at he
              · intro st' rest' he
                simp only [decodeF, h0, hlim, hlen, if_true, if_false] at he
                obtain ⟨h1, h2⟩ : (⟨.Key, key, frame⟩ : DecSt) = st' ∧
                    b0 :: b1 :: rest = rest' := by simpa using he
                rw [← h1, ← h2]
      | Value =>
        by_cases hlen : b0 * 256 + b1 ≤ rest.length
        · have hlen' : b0 * 256 + b1 ≤ (rest ++ extra).length := by
            simp; omega
          have hstep :
              decodeF (f' + 1) ⟨.Value, key, frame⟩ ((b0 :: b1 :: rest) ++ extra) =
                decodeF f'
                  ⟨.Key, [], frame ++ [(key, rest.take (b0 * 256 + b1))]⟩
                  (rest.drop (b0 * 256 + b1) ++ extra) := by
            simp only [List.cons_append, List.append_eq, decodeF, hlen',
              if_true]
            rw [List.take_append_of_le_length hlen,
              List.drop_append_of_le_length hlen]
          have hrec := ih ⟨.Key, [], frame ++ [(key, rest.take (b0 * 256 + b1))]⟩
            (rest.drop (b0 * 256 + b1)) extra f'
            (by simp at h ⊢; omega) (by simp at h' ⊢; omega)
          refine ⟨?_, ?_, ?_⟩
          · intro e he
            simp only [decodeF, hlen, if_true] at he
            rw [hstep]
            exact hrec.1 e he
          · intro fr st' rest' he
            simp only [decodeF, hlen, if_true] at he
            rw [hstep]
            exact hrec.2.1 fr st' rest' he
          · intro st' rest' he
            simp only [decodeF, hlen, if_true] at he
            rw [hstep]
            rw [hrec.2.2 st' rest' he]
            have hle := decodeF_length_le f _ _ none st' rest' he
            simp only [List.length_drop] at hle
            apply decodeF_fuel_irrel
            · simp at h' ⊢; omega
            · simp at h' ⊢; omega
        · refine ⟨?_, ?_, ?_⟩
          · intro e he; simp [decodeF, hlen] at he
          · intro fr st' rest' he; simp [decodeF, hlen] at he
          · intro st' rest' he
            simp only [decodeF, hlen, if_false] at he
            obtain ⟨h1, h2⟩ : (⟨.Value, key, frame⟩ : DecSt) = st' ∧
                b0 :: b1 :: rest = rest' := by simpa using he
            rw [← h1, ← h2]

/-- A `None` result from `decode` is a genuine stall: the returned buffer
is a suffix of the input, re-decoding it stalls again identically (no data
was consumed from the partial segment), and it is a partial segment: either
a truncated length prefix or a declared length exceeding the bytes held. -/
theorem decodeF_none_props :
    ∀ (fuel : Nat) (st : DecSt) (buf : List Nat) (st' : DecSt)
      (rest : List Nat),
      buf.length < fuel →
      decodeF fuel st buf = .ok (none, st', rest) →
      (∃ pre, buf = pre ++ rest) ∧
      (∀ fuel2, decodeF fuel2 st' rest = .ok (none, st', rest)) ∧
      (rest.length < 2 ∨
        ∃ b0 b1 t, rest = b0 :: b1 :: t ∧ t.length < b0 * 256 + b1) := by
  intro fuel
  induction fuel with
  | zero => intro st buf st' rest h; omega
  | succ f ih =>
    intro st buf st' rest h he
    match buf with
    | [] =>
      obtain ⟨h1, h2⟩ : st = st' ∧ ([] : List Nat) = rest := by
        simpa [decodeF] using he
      rw [← h1, ← h2]
      refine ⟨⟨[], rfl⟩, ?_, by simp⟩
      intro fuel2
      cases fuel2 <;> rfl
    | [b] =>
      obtain ⟨h1, h2⟩ : st = st' ∧ [b] = rest := by simpa [decodeF] using he
      rw [← h1, ← h2]
      refine ⟨⟨[], rfl⟩, ?_, by simp⟩
      intro fuel2
      cases fuel2 <;> rfl
    | b0 :: b1 :: more =>
      obtain ⟨state, key, frame⟩ := st
      cases state with
      | Key =>
        by_cases h0 : b0 * 256 + b1 = 0
        · simp [decodeF, h0] at he
        · by_cases hlim : 255 < b0 * 256 + b1
          · simp [decodeF, h0, hlim] at he
          · by_cases hlen : b0 * 256 + b1 ≤ more.length
            · simp only [decodeF, h0, hlim, hlen, if_true, if_false] at he
              obtain ⟨⟨pre, hpre⟩, hfix, hshape⟩ := ih _ _ _ _
                (by simp at h ⊢; omega) he
              refine ⟨⟨b0 :: b1 :: (more.take (b0 * 256 + b1) ++ pre), ?_⟩,
                hfix, hshape⟩
              simp only [List.cons_append, List.append_assoc, ← hpre]
              rw [List.take_append_drop]
            · obtain ⟨h1, h2⟩ : (⟨.Key, key, frame⟩ : DecSt) = st' ∧
                  b0 :: b1 :: more = rest := by
                simpa [decodeF, h0, hlim, hlen] using he
              rw [← h1, ← h2]
              refine ⟨⟨[], rfl⟩, ?_, .inr ⟨b0, b1, more, rfl, by omega⟩⟩
              intro fuel2
              cases fuel2 with
              | zero => rfl
              | succ f2 => simp [decodeF, h0, hlim, hlen]
      | Value =>
        by_cases hlen : b0 * 256 + b1 ≤ more.length
        · simp only [decodeF, hlen, if_true] at he
          obtain ⟨⟨pre, hpre⟩, hfix, hshape⟩ := ih _ _ _ _
            (by simp at h ⊢; omega) he
          refine ⟨⟨b0 :: b1 :: (more.take (b0 * 256 + b1) ++ pre), ?_⟩,
            hfix, hshape⟩
          simp only [List.cons_append, List.append_assoc, ← hpre]
          rw [List.take_append_drop]
        · obtain ⟨h1, h2⟩ : (⟨.Value, key, frame⟩ : DecSt) = st' ∧
              b0 :: b1 :: more = rest := by
            simpa [decodeF, hlen] using he
          rw [← h1, ← h2]
          refine ⟨⟨[], rfl⟩, ?_, .inr ⟨b0, b1, more, rfl, by omega⟩⟩
          intro fuel2
          cases fuel2 with
          | zero => rfl
          | succ f2 => simp [decodeF, hlen]

/-- A completed frame consumed at least its closing `0x0000`. -/
theorem decodeF_some_lt :
    ∀ (fuel : Nat) (st : DecSt) (buf : List Nat) (f : Box) (st' : DecSt)
      (rest : List Nat),
      decodeF fuel st buf = .ok (some f, st', rest) →
      rest.length + 2 ≤ buf.length := by
  intro fuel
  induction fuel with
  | zero => intro st buf f st' rest h; simp [decodeF] at h
  | succ fl ih =>
    intro st buf f st' rest h
    match buf with
    | [] => simp [decodeF] at h
    | [b] => simp [decodeF] at h
    | b0 :: b1 :: more =>
      obtain ⟨state, key, frame⟩ := st
      cases state with
      | Key =>
        by_cases h0 : b0 * 256 + b1 = 0
        · obtain ⟨-, -, h3⟩ : some frame = some f ∧
              (⟨.Key, key, []⟩ : DecSt) = st' ∧ more = rest := by
            simpa [decodeF, h0] using h
          rw [← h3]
          simp
        · by_cases hlim : 255 < b0 * 256 + b1
          · simp [decodeF, h0, hlim] at h
          · by_cases hlen : b0 * 256 + b1 ≤ more.length
            · simp only [decodeF, h0, hlim, hlen, if_true, if_false] at h
              have := ih _ _ _ _ _ h
              simp only [List.length_drop] at this
              simp only [List.length_cons]
              omega
            · simp [decodeF, h0, hlim, hlen] at h
      | Value =>
        by_cases hlen : b0 * 256 + b1 ≤ more.length
        · simp only [decodeF, hlen, if_true] at h
          have := ih _ _ _ _ _ h
          simp only [List.length_drop] at this
          simp only [List.length_cons]
          omega
        · simp [decodeF, hlen] at h

/-- The `tokio_util::codec::FramedRead` driver: call `decode` repeatedly on
the buffer, collecting every completed frame, until the decoder asks for
more bytes or fails.  Fueled; `buf.length + 1` calls always suffice since
every completed frame consumes at least two bytes. -/
def drainF : Nat → DecSt → List Nat →
    Except CodecError (List Box × DecSt × List Nat)
  | 0, st, buf => .ok ([], st, buf)
  | fuel + 1, st, buf =>
    match Dec.decode st buf with
    | .error e => .error e
    | .ok (none, st', rest) => .ok ([], st', rest)
    | .ok (some f, st', rest) =>
      match drainF fuel st' rest with
      | .error e => .error e
      | .ok (bs, s2, r2) => .ok (f :: bs, s2, r2)

/-- Decode as many frames as the buffer holds. -/
def Dec.drain (st : DecSt) (buf : List Nat) :
    Except CodecError (List Box × DecSt × List Nat) :=
  drainF (buf.length + 1) st buf

theorem drainF_length_le :
    ∀ (fuel : Nat) (st : DecSt) (buf : List Nat) (bs : List Box)
      (st' : DecSt) (rest : List Nat),
      drainF fuel st buf = .ok (bs, st', rest) → rest.length ≤ buf.length := by
  intro fuel
  induction fuel with
  | zero =>
    intro st buf bs st' rest h
    obtain ⟨-, -, h3⟩ : [] = bs ∧ st = st' ∧ buf = rest := by
      simpa [drainF] using h
    rw [← h3]
  | succ f ih =>
    intro st buf bs st' rest h
    cases hd : Dec.decode st buf with
    | error e => simp [drainF, hd] at h
    | ok v =>
      obtain ⟨r, st1, rest1⟩ := v
      have h1 := decodeF_length_le _ _ _ _ _ _ hd
      cases r with
      | none =>
        obtain ⟨-, -, h3⟩ : [] = bs ∧ st1 = st' ∧ rest1 = rest := by
          simpa [drainF, hd] using h
        subst h3
        omega
      | some fr =>
        simp only [drainF, hd] at h
        cases hd2 : drainF f st1 rest1 with
        | error e => rw [hd2] at h; simp at h
        | ok w =>
          obtain ⟨bs2, s2, r2⟩ := w
          rw [hd2] at h
          obtain ⟨-, -, h3⟩ : fr :: bs2 = bs ∧ s2 = st' ∧ r2 = rest := by
            simpa using h
          have := ih _ _ _ _ _ hd2
          subst h3
          omega

theorem drainF_fuel_irrel :
    ∀ (fuel fuel' : Nat) (st : DecSt) (buf : List Nat),
      buf.length < fuel → buf.length < fuel' →
      drainF fuel st buf = drainF fuel' st buf := by
  intro fuel
  induction fuel with
  | zero => intro fuel' st buf h; omega
  | succ f ih =>
    intro fuel' st buf h h'
    match fuel', h' with
    | f' + 1, h' =>
    cases hd : Dec.decode st buf with
    | error e => simp [drainF, hd]
    | ok v =>
      obtain ⟨r, st1, rest1⟩ := v
      cases r with
      | none => simp [drainF, hd]
      | some fr =>
        have hlt := decodeF_some_lt _ _ _ _ _ _ hd
        simp only [drainF, hd]
        rw [ih f' st1 rest1 (by omega) (by omega)]

theorem decode_extend_error (st : DecSt) (buf extra : List Nat)
    (e : CodecError) (h : Dec.decode st buf = .error e) :
    Dec.decode st (buf ++ extra) = .error e := by
  have := (decodeF_extend (buf.length + 1) st buf extra
    ((buf ++ extra).length + 1) (by omega) (by simp)).1 e h
  simpa [Dec.decode] using this

theorem decode_extend_some (st : DecSt) (buf extra : List Nat) (f : Box)
    (st' : DecSt) (rest : List Nat)
    (h : Dec.decode st buf = .ok (some f, st', rest)) :
    Dec.decode st (buf ++ extra) = .ok (some f, st', rest ++ extra) := by
  have := (decodeF_extend (buf.length + 1) st buf extra
    ((buf ++ extra).length + 1) (by omega) (by simp)).2.1 f st' rest h
  simpa [Dec.decode] using this

theorem decode_extend_none (st : DecSt) (buf extra : List Nat)
    (st' : DecSt) (rest : List Nat)
    (h : Dec.decode st buf = .ok (none, st', rest)) :
    Dec.decode st (buf ++ extra) = Dec.decode st' (rest ++ extra) := by
  have h2 := (decodeF_extend (buf.length + 1) st buf extra
    ((buf ++ extra).length + 1) (by omega) (by simp)).2.2 st' rest h
  have hle := decodeF_length_le _ _ _ _ _ _ h
  calc Dec.decode st (buf ++ extra)
      = decodeF ((buf ++ extra).length + 1) st' (rest ++ extra) := h2
    _ = Dec.decode st' (rest ++ extra) := by
        apply decodeF_fuel_irrel
        · simp only [List.length_append]
          omega
        · omega

theorem drainF_extend (fuel : Nat) :
    ∀ (st : DecSt) (buf extra : List Nat) (fuel' : Nat),
      buf.length < fuel → (buf ++ extra).length < fuel' →
      (∀ e, drainF fuel st buf = .error e →
        drainF fuel' st (buf ++ extra) = .error e) ∧
      (∀ bs st' rest, drainF fuel st buf = .ok (bs, st', rest) →
        drainF fuel' st (buf ++ extra) =
          Except.map (fun x => (bs ++ x.1, x.2))
            (drainF fuel' st' (rest ++ extra))) := by
  induction fuel with
  | zero => intro st buf extra fuel' h; omega
  | succ f ih =>
    intro st buf extra fuel' h h'
    match fuel', h' with
    | f' + 1, h2 =>
    cases hd : Dec.decode st buf with
    | error e0 =>
      have hd2 := decode_extend_error st buf extra e0 hd
      constructor
      · intro e he
        obtain rfl : e0 = e := by simpa [drainF, hd] using he
        simp [drainF, hd2]
      · intro bs st' rest he
        simp [drainF, hd] at he
    | ok v =>
      obtain ⟨r, st1, rest1⟩ := v
      cases r with
      | none =>
        have hd2 := decode_extend_none st buf extra st1 rest1 hd
        constructor
        · intro e he; simp [drainF, hd] at he
        · intro bs st' rest he
          obtain ⟨h1, h2, h3⟩ : [] = bs ∧ st1 = st' ∧ rest1 = rest := by
            simpa [drainF, hd] using he
          subst h2
          subst h3
          rw [← h1]
          have hfix : Dec.decode st (buf ++ extra) = Dec.decode st1 (rest1 ++ extra) := hd2
          cases hd3 : Dec.decode st1 (rest1 ++ extra) with
          | error e2 =>
            simp [drainF, hfix, hd3, Except.map]
          | ok w =>
            obtain ⟨r2, s2, r3⟩ := w
            cases r2 with
            | none => simp [drainF, hfix, hd3, Except.map]
            | some fr =>
              simp only [drainF, hfix, hd3]
              cases drainF f' s2 r3 with
              | error e3 => simp [Except.map]
              | ok w2 => simp [Except.map]
      | some fr =>
        have hd2 := decode_extend_some st buf extra fr st1 rest1 hd
        have hlt := decodeF_some_lt _ _ _ _ _ _ hd
        have ihr := ih st1 rest1 extra f' (by omega)
          (by simp only [List.length_append] at h2 ⊢; omega)
        constructor
        · intro e he
          simp only [drainF, hd] at he
          cases hdr : drainF f st1 rest1 with
          | error e1 =>
            rw [hdr] at he
            obtain rfl : e1 = e := by simpa using he
            have h5 := ihr.1 e1 hdr
            simp [drainF, hd2, h5]
          | ok w =>
            rw [hdr] at he
            obtain ⟨bs1, s2, r2⟩ := w
            simp at he
        · intro bs st' rest he
          simp only [drainF, hd] at he
          cases hdr : drainF f st1 rest1 with
          | error e1 => rw [hdr] at he; simp at he
          | ok w =>
            rw [hdr] at he
            obtain ⟨bs1, s2, r2⟩ := w
            obtain ⟨hq1, hq2, hq3⟩ : fr :: bs1 = bs ∧ s2 = st' ∧ r2 = rest := by
              simpa using he
            subst hq2
            subst hq3
            rw [← hq1]
            have hmap := ihr.2 bs1 s2 r2 hdr
            have hr2le := drainF_length_le _ _ _ _ _ _ hdr
            have hfi : drainF f' s2 (r2 ++ extra) =
                drainF (f' + 1) s2 (r2 ++ extra) := by
              apply drainF_fuel_irrel
              · simp only [List.length_append] at h2 ⊢
                omega
              · simp only [List.length_append] at h2 ⊢
                omega
            have hgoal : drainF (f' + 1) st (buf ++ extra) =
                match Except.map (fun x => (bs1 ++ x.1, x.2))
                    (drainF f' s2 (r2 ++ extra)) with
                | .error e => .error e
                | .ok (bs2, s3, r3) => .ok (fr :: bs2, s3, r3) := by
              simp only [drainF, hd2, hmap]
            rw [hgoal, ← hfi]
            cases h5 : drainF f' s2 (r2 ++ extra) with
            | error e3 => simp [Except.map]
            | ok w2 =>
              obtain ⟨bs2, s3, r3⟩ := w2
              simp [Except.map]

theorem drain_extend (st : DecSt) (buf extra : List Nat) :
    (∀ e, Dec.drain st buf = .error e →
      Dec.drain st (buf ++ extra) = .error e) ∧
    (∀ bs st' rest, Dec.drain st buf = .ok (bs, st', rest) →
      Dec.drain st (buf ++ extra) =
        Except.map (fun x => (bs ++ x.1, x.2))
          (Dec.drain st' (rest ++ extra))) := by
  have hx := drainF_extend (buf.length + 1) st buf extra
    ((buf ++ extra).length + 1) (by omega) (by omega)
  constructor
  · intro e he
    exact hx.1 e he
  · intro bs st' rest he
    have hre := drainF_length_le _ _ _ _ _ _ he
    have h6 := hx.2 bs st' rest he
    have hfi : drainF ((buf ++ extra).length + 1) st' (rest ++ extra) =
        Dec.drain st' (rest ++ extra) := by
      apply drainF_fuel_irrel
      · simp only [List.length_append]
        omega
      · omega
    show drainF ((buf ++ extra).length + 1) st (buf ++ extra) = _
    rw [h6, hfi]

theorem drainF_stalled (fuel : Nat) :
    ∀ (st : DecSt) (buf : List Nat) (bs : List Box) (st' : DecSt)
      (rest : List Nat),
      buf.length < fuel →
      drainF fuel st buf = .ok (bs, st', rest) →
      Dec.decode st' rest = .ok (none, st', rest) := by
  induction fuel with
  | zero => intro st buf bs st' rest h; omega
  | succ f ih =>
    intro st buf bs st' rest h he
    cases hd : Dec.decode st buf with
    | error e => simp [drainF, hd] at he
    | ok v =>
      obtain ⟨r, st1, rest1⟩ := v
      cases r with
      | none =>
        obtain ⟨-, h2, h3⟩ : [] = bs ∧ st1 = st' ∧ rest1 = rest := by
          simpa [drainF, hd] using he
        subst h2
        subst h3
        exact (decodeF_none_props _ _ _ _ _ (by omega) hd).2.1 _
      | some fr =>
        have hlt := decodeF_some_lt _ _ _ _ _ _ hd
        simp only [drainF, hd] at he
        cases hdr : drainF f st1 rest1 with
        | error e1 => rw [hdr] at he; simp at he
        | ok w =>
          rw [hdr] at he
          obtain ⟨bs1, s2, r2⟩ := w
          obtain ⟨-, h2, h3⟩ : fr :: bs1 = bs ∧ s2 = st' ∧ r2 = rest := by
            simpa using he
          subst h2
          subst h3
          exact ih _ _ _ _ _ (by omega) hdr

/-- Feeding the decoder chunk by chunk: append each chunk to the leftover
buffer, drain all complete frames, continue with the next chunk.  This is
how `FramedRead` drives `decode` as network reads arrive. -/
def feedChunks (st : DecSt) (buf : List Nat) :
    List (List Nat) → Except CodecError (List Box × DecSt × List Nat)
  | [] => .ok ([], st, buf)
  | c :: cs =>
    match Dec.drain st (buf ++ c) with
    | .error e => .error e
    | .ok (bs, st', rest) =>
      Except.map (fun x => (bs ++ x.1, x.2)) (feedChunks st' rest cs)

theorem feedChunks_flatten :
    ∀ (cs : List (List Nat)) (st : DecSt) (buf : List Nat),
      Dec.decode st buf = .ok (none, st, buf) →
      feedChunks st buf cs = Dec.drain st (buf ++ cs.flatten) := by
  intro cs
  induction cs with
  | nil =>
    intro st buf hst
    simp only [feedChunks, List.flatten_nil, List.append_nil]
    simp [Dec.drain, drainF, hst]
  | cons c cs ih =>
    intro st buf hst
    have hassoc : buf ++ (c :: cs).flatten = (buf ++ c) ++ cs.flatten := by
      simp [List.append_assoc]
    rw [hassoc]
    cases hd : Dec.drain st (buf ++ c) with
    | error e =>
      rw [(drain_extend st (buf ++ c) cs.flatten).1 e hd]
      simp [feedChunks, hd]
    | ok w =>
      obtain ⟨bs, st', rest⟩ := w
      rw [(drain_extend st (buf ++ c) cs.flatten).2 bs st' rest hd]
      have hstall : Dec.decode st' rest = .ok (none, st', rest) :=
        drainF_stalled _ _ _ _ _ _ (by omega) hd
      simp only [feedChunks, hd]
      rw [ih st' rest hstall]

/-- C2: V1 `decode ∘ encode` is the identity on valid boxes, consuming the
whole encoding and leaving a fresh decoder. -/
theorem c2_v1_roundtrip (b : Box) (hb : ValidBox b) :
    ∃ bytes, Enc.encode b = .ok bytes ∧
      Dec.decode Dec.new bytes = .ok (some b, Dec.new, []) := by
  refine ⟨encBody b ++ [0, 0], encode_ok b hb, ?_⟩
  have h := decodeF_encBody b hb [] [] [] ((encBody b ++ [0, 0]).length + 1)
    (by simp)
  simp only [Dec.decode, Dec.new]
  have he : encBody b ++ [0, 0] = encBody b ++ 0 :: 0 :: ([] : List Nat) := rfl
  rw [he]
  rw [h]
  cases b <;> simp

theorem c2_v1_roundtrip_witness :
    ValidBox [([95, 97, 115, 107], [50, 51])] ∧
    ∃ bytes, Enc.encode [([95, 97, 115, 107], [50, 51])] = .ok bytes ∧
      Dec.decode Dec.new bytes =
        .ok (some [([95, 97, 115, 107], [50, 51])], Dec.new, []) :=
  ⟨by decide, c2_v1_roundtrip _ (by decide)⟩

/-- C9: the V1 decoder is resumable.  Feeding any chunking of a byte
sequence through repeated decode calls produces the same frames (and the
same final state, leftover and error behavior) as feeding the whole
sequence at once; a decode call that stalls inside a partial segment
returns `none`, keeps every unconsumed byte of that partial segment in the
buffer (the leftover is a suffix of the input and re-decoding it stalls
identically), and the leftover is indeed a partial segment: either a
truncated length prefix or fewer body bytes than the prefix declares. -/
theorem c9_decoder_resumable :
    (∀ cs : List (List Nat),
      feedChunks Dec.new [] cs = Dec.drain Dec.new cs.flatten) ∧
    (∀ (st : DecSt) (buf : List Nat) (st' : DecSt) (rest : List Nat),
      Dec.decode st buf = .ok (none, st', rest) →
      (∃ pre, buf = pre ++ rest) ∧
      Dec.decode st' rest = .ok (none, st', rest) ∧
      (rest.length < 2 ∨
        ∃ b0 b1 t, rest = b0 :: b1 :: t ∧ t.length < b0 * 256 + b1)) := by
  constructor
  · intro cs
    have h := feedChunks_flatten cs Dec.new [] (by decide)
    simpa using h
  · intro st buf st' rest h
    obtain ⟨hpre, hfix, hshape⟩ :=
      decodeF_none_props (buf.length + 1) st buf st' rest (by omega) h
    exact ⟨hpre, hfix (rest.length + 1), hshape⟩

theorem c9_decoder_resumable_witness :
    feedChunks Dec.new [] [[0, 4], [95, 97, 115, 107, 0, 2], [50, 51, 0, 0]] =
      Dec.drain Dec.new [0, 4, 95, 97, 115, 107, 0, 2, 50, 51, 0, 0] ∧
    ((∃ pre, [0, 4, 95] = pre ++ [0, 4, 95]) ∧
      Dec.decode Dec.new [0, 4, 95] = .ok (none, Dec.new, [0, 4, 95]) ∧
      (([0, 4, 95] : List Nat).length < 2 ∨
        ∃ b0 b1 t, [0, 4, 95] = b0 :: b1 :: t ∧ t.length < b0 * 256 + b1)) := by
  constructor
  · have h := c9_decoder_resumable.1
      [[0, 4], [95, 97, 115, 107, 0, 2], [50, 51, 0, 0]]
    simpa [List.flatten] using h
  · exact c9_decoder_resumable.2 Dec.new [0, 4, 95] Dec.new [0, 4, 95]
      (by decide)

/-!
### V2 large values

The V2 emitter is `AmpEncoder for V2::push_long_value` (amp-serde
`ser.rs`): it serializes the value into a temporary buffer, emits a single
zero-length segment when the buffer is empty, and otherwise emits each
`chunks(65535)` slice as one length-prefixed segment.  Rust's
`slice::chunks(n)` yields chunks of exactly `n` elements with a final
shorter chunk only when the length is not a multiple of `n`; it never
yields an empty chunk.

The V2 decoder is `AmpVersion for V2::handle_value` with
`handle_valuecont` (amp-async `codecs.rs`), modelled at the segment level:
the `LengthDelimitedCodec` segmentation of `klen key`/`vlen value` words is
abstracted into a stream of segments.
-/

/-- Rust `slice::chunks(65535)`. -/
def chunks65535 (v : List Nat) : List (List Nat) :=
  if v.isEmpty then []
  else v.take 65535 :: chunks65535 (v.drop 65535)
termination_by v.length
decreasing_by
  simp only [List.length_drop]
  cases v with
  | nil => simp at *
  | cons a t => simp; omega

/-- The value segments emitted by `V2::push_long_value` for a value whose
serialized bytes are `v`: a single empty segment for an empty value, else
one segment per `chunks(65535)` slice. -/
def v2ValueSegments (v : List Nat) : List (List Nat) :=
  if v.isEmpty then [[]] else chunks65535 v

/-- The emitted bytes: each segment length-prefixed (`u16be`). -/
def v2ValueBytes (v : List Nat) : List Nat :=
  (v2ValueSegments v).flatMap (fun c => u16be c.length ++ c)

/-- V2 decoder state (`State { Key, Value, ValueCont }`). -/
inductive V2State where
  | Key
  | Value
  | ValueCont
deriving DecidableEq, Repr

/-- The V2 `Dec` fields (amp-async `codecs.rs`). -/
structure V2Dec where
  state : V2State
  key : List Nat
  value : List Nat
  frame : Box
deriving DecidableEq, Repr

def V2Dec.new : V2Dec := ⟨.Key, [], [], []⟩

/-- One decoded segment fed to the V2 decoder: the `State::Key` branch of
`decode`, `V2::handle_value`, and `handle_valuecont`. -/
def V2Dec.step (d : V2Dec) (seg : List Nat) : V2Dec × Option Box :=
  match d.state with
  | .Key =>
    if seg.isEmpty then (⟨.Key, d.key, d.value, []⟩, some d.frame)
    else (⟨.Value, seg, d.value, d.frame⟩, none)
  | .Value =>
    if seg.length = 65535 then (⟨.ValueCont, d.key, seg, d.frame⟩, none)
    else (⟨.Key, [], d.value, d.frame ++ [(d.key, seg)]⟩, none)
  | .ValueCont =>
    if seg.length ≠ 65535 then
      (⟨.Key, [], [], d.frame ++ [(d.key, d.value ++ seg)]⟩, none)
    else (⟨.ValueCont, d.key, d.value ++ seg, d.frame⟩, none)

/-- Feed a list of segments, collecting every emitted box. -/
def V2Dec.run (d : V2Dec) : List (List Nat) → V2Dec × List Box
  | [] => (d, [])
  | seg :: rest =>
    match d.step seg with
    | (d', some b) =>
      match d'.run rest with
      | (d2, outs) => (d2, b :: outs)
    | (d', none) => d'.run rest

theorem chunks65535_two (v : List Nat) (hv : v.length = 131070) :
    chunks65535 v = [v.take 65535, v.drop 65535] := by
  have hne : v.isEmpty = false := by
    cases v with
    | nil => simp at hv
    | cons a t => rfl
  have hne2 : (v.drop 65535).isEmpty = false := by
    rw [Bool.eq_false_iff]
    intro h
    rw [List.isEmpty_iff_length_eq_zero, List.length_drop, hv] at h
    omega
  rw [chunks65535, if_neg (by simp [hne])]
  rw [chunks65535, if_neg (by simp [hne2])]
  rw [List.take_of_length_le
    (show (v.drop 65535).length ≤ 65535 by rw [List.length_drop, hv])]
  rw [List.drop_drop, chunks65535,
    if_pos (by simp [List.isEmpty_iff_length_eq_zero, List.length_drop, hv])]

/-- Running the V2 decoder over a key segment, two maximal 65535-byte value
segments, and the frame-closing empty segment: the empty segment is
swallowed as the value terminator, no box is emitted, and the decoder is
back in `Key` state still inside the unfinished frame. -/
theorem v2run_two_full (k s1 s2 : List Nat) (hk : k.isEmpty = false)
    (h1 : s1.length = 65535) (h2 : s2.length = 65535) :
    V2Dec.run V2Dec.new [k, s1, s2, []] =
      (⟨.Key, [], [], [(k, s1 ++ s2)]⟩, []) := by
  have e1 : V2Dec.step V2Dec.new k = (⟨.Value, k, [], []⟩, none) := by
    simp [V2Dec.step, V2Dec.new, hk]
  have e2 : V2Dec.step ⟨.Value, k, [], []⟩ s1 =
      (⟨.ValueCont, k, s1, []⟩, none) := by
    simp [V2Dec.step, h1]
  have e3 : V2Dec.step ⟨.ValueCont, k, s1, []⟩ s2 =
      (⟨.ValueCont, k, s1 ++ s2, []⟩, none) := by
    simp [V2Dec.step, h2]
  have e4 : V2Dec.step ⟨.ValueCont, k, s1 ++ s2, []⟩ [] =
      (⟨.Key, [], [], [(k, s1 ++ s2)]⟩, none) := by
    simp [V2Dec.step]
  simp only [V2Dec.run, e1, e2, e3, e4]

/-- C1 (refuted by the code): for every V2 value of length `L = 131070 =
2 * 65535` (a multiple of 65535) the emitter produces only `L / 65535 = 2`
segments — not the `ceil(L/65535) + 1 = 3` segments ending in a
zero-length terminator that the claim requires; the last emitted segment
carries the full 65535 bytes rather than fewer; and feeding the complete
encoded frame (key segment, both value segments, frame-closing empty
segment) to the V2 decoder emits no box at all — the decoder absorbs the
frame-closing empty segment as the value terminator and is left waiting
inside the frame, so V2 decoding of the encoding does not yield the
original box. -/
theorem c1_v2_terminator_missing (v : List Nat) (hv : v.length = 131070)
    (k : List Nat) (hk : k.isEmpty = false) :
    (v2ValueSegments v).length = 2 ∧
    131070 % 65535 = 0 ∧ (2 : Nat) ≠ 131070 / 65535 + 1 ∧
    ((v2ValueSegments v).getLast?.map List.length = some 65535) ∧
    V2Dec.run V2Dec.new (k :: v2ValueSegments v ++ [[]]) =
      (⟨.Key, [], [], [(k, v)]⟩, []) := by
  have hne : v.isEmpty = false := by
    cases v with
    | nil => simp at hv
    | cons a t => rfl
  have hseg : v2ValueSegments v = [v.take 65535, v.drop 65535] := by
    rw [v2ValueSegments, if_neg (by simp [hne]), chunks65535_two v hv]
  have h1 : (v.take 65535).length = 65535 := by
    rw [List.length_take, hv]
    norm_num
  have h2 : (v.drop 65535).length = 65535 := by
    rw [List.length_drop, hv]
  refine ⟨by rw [hseg]; rfl, by norm_num, by norm_num, ?_, ?_⟩
  · rw [hseg]
    simp [h2]
  · rw [hseg]
    have hlist : k :: [v.take 65535, v.drop 65535] ++ [[]] =
        [k, v.take 65535, v.drop 65535, []] := rfl
    rw [hlist, v2run_two_full k _ _ hk h1 h2, List.take_append_drop]

theorem c1_v2_terminator_missing_witness :
    (List.replicate 131070 7).length = 131070 ∧
    ([107] : List Nat).isEmpty = false ∧
    ((v2ValueSegments (List.replicate 131070 7)).length = 2 ∧
     131070 % 65535 = 0 ∧ (2 : Nat) ≠ 131070 / 65535 + 1 ∧
     ((v2ValueSegments (List.replicate 131070 7)).getLast?.map
       List.length = some 65535) ∧
     V2Dec.run V2Dec.new
        ([107] :: v2ValueSegments (List.replicate 131070 7) ++ [[]]) =
       (⟨.Key, [], [], [([107], List.replicate 131070 7)]⟩, [])) :=
  ⟨List.length_replicate 131070 7, rfl,
    c1_v2_terminator_missing (List.replicate 131070 7)
      (List.length_replicate 131070 7) [107] rfl⟩

/-!
### Frame classification (`src/frame.rs`, `TryFrom<RawFrame> for Frame`)

`RawFrame` is a `HashMap<Vec<u8>, Bytes>`; we embed it as an association
list with `HashMap`-style operations (`contains_key`, value lookup, entry
removal).  The Rust `unwrap` calls are modelled by a `PanicUnreachable`
error value, proved unreachable.
-/

/-- Server-side error variants (`error.rs` in both crates), restricted to
the modelled paths.  `PanicUnreachable` stands for a Rust panic. -/
inductive AmpError where
  | ConfusedFrame
  | IncompleteErrorFrame
  | UnmatchedReply
  | SendError
  | InvalidUtf8
  | PanicUnreachable
deriving DecidableEq, Repr

abbrev RawFrame := List (List Nat × List Nat)

def containsKey (m : RawFrame) (k : List Nat) : Bool :=
  m.any (fun p => p.1 == k)

def lookupKey : RawFrame → List Nat → Option (List Nat)
  | [], _ => none
  | p :: rest, k => if p.1 = k then some p.2 else lookupKey rest k

def removeKey : RawFrame → List Nat → RawFrame
  | [], _ => []
  | p :: rest, k => if p.1 = k then rest else p :: removeKey rest k

/-- `WireError { code, description }`. -/
structure WireError where
  code : List Nat
  description : List Nat
deriving DecidableEq, Repr

/-- `Frame`: a classified box (`frame.rs`). -/
inductive Frame where
  | Request (command : List Nat) (tag : Option (List Nat)) (fields : RawFrame)
  | Response (tag : List Nat) (response : Except WireError RawFrame)
deriving DecidableEq, Repr

def kCommand : List Nat := [95, 99, 111, 109, 109, 97, 110, 100]
def kAsk : List Nat := [95, 97, 115, 107]
def kAnswer : List Nat := [95, 97, 110, 115, 119, 101, 114]
def kError : List Nat := [95, 101, 114, 114, 111, 114]
def kErrorCode : List Nat :=
  [95, 101, 114, 114, 111, 114, 95, 99, 111, 100, 101]
def kErrorDescription : List Nat :=
  [95, 101, 114, 114, 111, 114, 95, 100, 101, 115, 99, 114, 105, 112, 116,
   105, 111, 110]

/-- `TryFrom<RawFrame> for Frame::try_from`, branch for branch. -/
def Frame.tryFromRaw (frame : RawFrame) : Except AmpError Frame :=
  if containsKey frame kCommand then
    if containsKey frame kError || containsKey frame kAnswer then
      .error .ConfusedFrame
    else
      match lookupKey frame kCommand with
      | none => .error .PanicUnreachable
      | some command =>
        .ok (.Request command (lookupKey (removeKey frame kCommand) kAsk)
          (removeKey (removeKey frame kCommand) kAsk))
  else if containsKey frame kAnswer then
    if containsKey frame kError || containsKey frame kCommand then
      .error .ConfusedFrame
    else
      match lookupKey frame kAnswer with
      | none => .error .PanicUnreachable
      | some tag => .ok (.Response tag (.ok (removeKey frame kAnswer)))
  else if containsKey frame kError then
    if containsKey frame kAnswer || containsKey frame kCommand then
      .error .ConfusedFrame
    else
      match lookupKey frame kError with
      | none => .error .PanicUnreachable
      | some tag =>
        match lookupKey (removeKey frame kError) kErrorCode with
        | none => .error .IncompleteErrorFrame
        | some code =>
          match lookupKey (removeKey (removeKey frame kError) kErrorCode)
              kErrorDescription with
          | none => .error .IncompleteErrorFrame
          | some description =>
            .ok (.Response tag (.error ⟨code, description⟩))
  else .error .ConfusedFrame

/-- The classification rules exactly as the specification words them:
mutually exclusive key-presence conditions, `ConfusedFrame` for every
other combination, and `IncompleteErrorFrame` unless both `_error_code`
and `_error_description` accompany `_error`. -/
def specClassify (frame : RawFrame) : Except AmpError Frame :=
  if containsKey frame kCommand && !containsKey frame kAnswer &&
      !containsKey frame kError then
    match lookupKey frame kCommand with
    | none => .error .PanicUnreachable
    | some command =>
      .ok (.Request command (lookupKey (removeKey frame kCommand) kAsk)
        (removeKey (removeKey frame kCommand) kAsk))
  else if containsKey frame kAnswer && !containsKey frame kCommand &&
      !containsKey frame kError then
    match lookupKey frame kAnswer with
    | none => .error .PanicUnreachable
    | some tag => .ok (.Response tag (.ok (removeKey frame kAnswer)))
  else if containsKey frame kError && !containsKey frame kCommand &&
      !containsKey frame kAnswer then
    match lookupKey frame kError with
    | none => .error .PanicUnreachable
    | some tag =>
      match lookupKey (removeKey frame kError) kErrorCode,
          lookupKey (removeKey (removeKey frame kError) kErrorCode)
            kErrorDescription with
      | some code, some description =>
        .ok (.Response tag (.error ⟨code, description⟩))
      | _, _ => .error .IncompleteErrorFrame
  else .error .ConfusedFrame

theorem containsKey_lookup (m : RawFrame) (k : List Nat)
    (h : containsKey m k = true) : ∃ v, lookupKey m k = some v := by
  induction m with
  | nil => simp [containsKey] at h
  | cons p rest ih =>
    by_cases hp : p.1 = k
    · exact ⟨p.2, by simp [lookupKey, hp]⟩
    · have h2 : containsKey rest k = true := by
        simpa [containsKey, hp] using h
      obtain ⟨v, hv⟩ := ih h2
      exact ⟨v, by simp [lookupKey, hp, hv]⟩

/-- C3: classification of a decoded box is total and follows the
key-presence rules of the specification word for word; no combination
reaches the `unwrap` panics. -/
theorem c3_classifier_total (frame : RawFrame) :
    Frame.tryFromRaw frame = specClassify frame ∧
    Frame.tryFromRaw frame ≠ .error .PanicUnreachable := by
  cases hc : containsKey frame kCommand <;>
    cases ha : containsKey frame kAnswer <;>
      cases he : containsKey frame kError
  · simp [Frame.tryFromRaw, specClassify, hc, ha, he]
  · obtain ⟨tag, htag⟩ := containsKey_lookup frame kError he
    cases hcode : lookupKey (removeKey frame kError) kErrorCode with
    | none => simp [Frame.tryFromRaw, specClassify, hc, ha, he, htag, hcode]
    | some code =>
      cases hdesc : lookupKey (removeKey (removeKey frame kError) kErrorCode)
          kErrorDescription with
      | none =>
        simp [Frame.tryFromRaw, specClassify, hc, ha, he, htag, hcode, hdesc]
      | some description =>
        simp [Frame.tryFromRaw, specClassify, hc, ha, he, htag, hcode, hdesc]
  · obtain ⟨tag, htag⟩ := containsKey_lookup frame kAnswer ha
    simp [Frame.tryFromRaw, specClassify, hc, ha, he, htag]
  · simp [Frame.tryFromRaw, specClassify, hc, ha, he]
  · obtain ⟨command, hcmd⟩ := containsKey_lookup frame kCommand hc
    simp [Frame.tryFromRaw, specClassify, hc, ha, he, hcmd]
  · simp [Frame.tryFromRaw, specClassify, hc, ha, he]
  · simp [Frame.tryFromRaw, specClassify, hc, ha, he]
  · simp [Frame.tryFromRaw, specClassify, hc, ha, he]

/-!
### Hexadecimal reply tags

The write loop allocates tags with `format!("{:x}", seqno)` (lowercase
hex of a `u64`); the read loop matches an echoed tag with
`str::from_utf8` followed by `u64::from_str_radix(tag, 16)` and a
`HashMap::remove` keyed by the parsed number.
-/

/-- One lowercase hex digit as its ASCII byte (`0`..`9`, `a`..`f`). -/
def hexDigitByte (d : Nat) : Nat := if d < 10 then 48 + d else 87 + d

/-- Little-endian base-16 digits, fueled (digit count never exceeds the
number itself, so `n` fuel suffices for `n`). -/
def hexDigitsLEF : Nat → Nat → List Nat
  | 0, _ => []
  | fuel + 1, n => if n = 0 then [] else n % 16 :: hexDigitsLEF fuel (n / 16)

def hexDigitsLE (n : Nat) : List Nat := hexDigitsLEF n n

/-- `format!("{:x}", n)` as ASCII bytes: most significant digit first, no
leading zeros, `"0"` for zero. -/
def hexRepr (n : Nat) : List Nat :=
  if n = 0 then [48] else (hexDigitsLE n).reverse.map hexDigitByte

/-- `char::to_digit(16)` on an ASCII byte. -/
def hexDigitVal (b : Nat) : Option Nat :=
  if 48 ≤ b ∧ b ≤ 57 then some (b - 48)
  else if 97 ≤ b ∧ b ≤ 102 then some (b - 87)
  else if 65 ≤ b ∧ b ≤ 70 then some (b - 55)
  else none

/-- The digit loop of `u64::from_str_radix`: multiply-accumulate with a
checked-overflow bound at `u64::MAX`. -/
def parseHexGo : Nat → List Nat → Option Nat
  | acc, [] => some acc
  | acc, d :: ds =>
    match hexDigitVal d with
    | none => none
    | some v =>
      if acc * 16 + v < 2 ^ 64 then parseHexGo (acc * 16 + v) ds else none

/-- `u64::from_str_radix(s, 16)`: empty input fails, one leading `+` is
accepted (but not alone), every remaining byte must be a hex digit, and
overflow beyond `u64::MAX` fails. -/
def parseHexU64 (bs : List Nat) : Option Nat :=
  match bs with
  | [] => none
  | b :: rest =>
    if b = 43 then (if rest.isEmpty then none else parseHexGo 0 rest)
    else parseHexGo 0 (b :: rest)

theorem hexDigitsLEF_irrel :
    ∀ (fuel fuel' n : Nat), n ≤ fuel → n ≤ fuel' →
      hexDigitsLEF fuel n = hexDigitsLEF fuel' n := by
  intro fuel
  induction fuel with
  | zero =>
    intro fuel' n h h'
    obtain rfl : n = 0 := by omega
    cases fuel' <;> rfl
  | succ f ih =>
    intro fuel' n h h'
    by_cases h0 : n = 0
    · subst h0; cases fuel' <;> rfl
    · obtain ⟨f2, rfl⟩ : ∃ f2, fuel' = f2 + 1 := ⟨fuel' - 1, by omega⟩
      simp only [hexDigitsLEF, h0, if_false]
      rw [ih f2 (n / 16) (by omega) (by omega)]

theorem hexDigitsLE_zero : hexDigitsLE 0 = [] := rfl

theorem hexDigitsLE_pos (n : Nat) (h : 0 < n) :
    hexDigitsLE n = n % 16 :: hexDigitsLE (n / 16) := by
  obtain ⟨m, rfl⟩ : ∃ m, n = m + 1 := ⟨n - 1, by omega⟩
  show hexDigitsLEF (m + 1) (m + 1) = _
  simp only [hexDigitsLEF, Nat.succ_ne_zero, if_false]
  rw [hexDigitsLEF_irrel m ((m + 1) / 16) ((m + 1) / 16) (by omega)
    (by omega)]
  rfl

theorem hexDigitVal_hexDigitByte (d : Nat) (h : d < 16) :
    hexDigitVal (hexDigitByte d) = some d := by
  by_cases h10 : d < 10
  · simp only [hexDigitByte, hexDigitVal, h10, if_true]
    rw [if_pos (by omega)]
    congr 1
    omega
  · simp only [hexDigitByte, hexDigitVal, h10, if_false]
    rw [if_neg (by omega), if_pos (by omega)]
    congr 1
    omega

theorem hexDigitByte_ge (d : Nat) : 48 ≤ hexDigitByte d := by
  simp only [hexDigitByte]
  split <;> omega

theorem parseHexGo_append (xs : List Nat) :
    ∀ (acc : Nat) (ys : List Nat),
      parseHexGo acc (xs ++ ys) =
        match parseHexGo acc xs with
        | some a => parseHexGo a ys
        | none => none := by
  induction xs with
  | nil => intro acc ys; rfl
  | cons d ds ih =>
    intro acc ys
    simp only [List.cons_append, parseHexGo]
    cases hexDigitVal d with
    | none => rfl
    | some v =>
      dsimp only
      split_ifs with hov
      · exact ih _ ys
      · rfl

theorem parseHexGo_hexBE (n : Nat) :
    ∀ (acc : Nat), acc * 16 ^ (hexDigitsLE n).length + n < 2 ^ 64 →
      parseHexGo acc ((hexDigitsLE n).reverse.map hexDigitByte) =
        some (acc * 16 ^ (hexDigitsLE n).length + n) := by
  induction n using Nat.strong_induction_on with
  | _ n ih =>
    intro acc hacc
    by_cases h0 : n = 0
    · subst h0
      simp [hexDigitsLE_zero, parseHexGo]
    · rw [hexDigitsLE_pos n (by omega)]
      rw [hexDigitsLE_pos n (by omega)] at hacc
      rw [List.length_cons] at hacc
      rw [List.length_cons, List.reverse_cons, List.map_append]
      rw [parseHexGo_append]
      have hlt : n / 16 < n := Nat.div_lt_self (by omega) (by norm_num)
      have hpow : 16 ^ ((hexDigitsLE (n / 16)).length + 1) =
          16 * 16 ^ (hexDigitsLE (n / 16)).length := by
        rw [Nat.pow_succ]
        ring
      rw [hpow] at hacc
      have hX : acc * (16 * 16 ^ (hexDigitsLE (n / 16)).length) =
          16 * (acc * 16 ^ (hexDigitsLE (n / 16)).length) := by ring
      rw [hX] at hacc
      have hacc2 : acc * 16 ^ (hexDigitsLE (n / 16)).length + n / 16 <
          2 ^ 64 := by omega
      rw [ih (n / 16) hlt acc hacc2]
      dsimp only
      simp only [List.map_cons, List.map_nil, parseHexGo]
      rw [hexDigitVal_hexDigitByte (n % 16) (by omega)]
      dsimp only
      have hmul : (acc * 16 ^ (hexDigitsLE (n / 16)).length + n / 16) * 16 +
          n % 16 = 16 * (acc * 16 ^ (hexDigitsLE (n / 16)).length) + n := by
        omega
      rw [hmul, if_pos (by omega)]
      show some _ = some _
      congr 1
      rw [hpow, hX]

/-- Parsing inverts formatting on every `u64` value. -/
theorem parseHex_hexRepr (n : Nat) (h : n < 2 ^ 64) :
    parseHexU64 (hexRepr n) = some n := by
  by_cases h0 : n = 0
  · subst h0; decide
  · rw [hexRepr, if_neg h0]
    have hmain := parseHexGo_hexBE n 0 (by simpa using h)
    simp only [Nat.zero_mul, Nat.zero_add] at hmain
    cases hM : (hexDigitsLE n).reverse.map hexDigitByte with
    | nil =>
      rw [hexDigitsLE_pos n (by omega)] at hM
      simp at hM
    | cons x xs =>
      have hx : 48 ≤ x := by
        have hmem : x ∈ (hexDigitsLE n).reverse.map hexDigitByte := by
          rw [hM]; simp
        obtain ⟨d, -, hd⟩ := List.mem_map.mp hmem
        rw [← hd]
        exact hexDigitByte_ge d
      rw [parseHexU64]
      rw [if_neg (by omega)]
      rw [← hM]
      exact hmain

theorem hexRepr_injOn (a b : Nat) (ha : a < 2 ^ 64) (hb : b < 2 ^ 64)
    (h : hexRepr a = hexRepr b) : a = b := by
  have h2 := parseHex_hexRepr a ha
  rw [h, parseHex_hexRepr b hb] at h2
  have h3 : b = a := by simpa using h2
  omega

/-!
### UTF-8 validation (`std::str::from_utf8`) and ASCII case folding
-/

/-- State of the UTF-8 validation automaton: how many continuation bytes
remain, and the admissible range for the next byte (the first continuation
byte after `E0`/`ED`/`F0`/`F4` lead bytes has a restricted range; later
ones accept `80..BF`). -/
structure Utf8St where
  rem : Nat
  lo : Nat
  hi : Nat
deriving DecidableEq, Repr

/-- One byte of `std::str::from_utf8` validation: shortest forms only, no
surrogates, maximum U+10FFFF. -/
def utf8Next (st : Utf8St) (b : Nat) : Option Utf8St :=
  if st.rem = 0 then
    if b ≤ 127 then some ⟨0, 0, 0⟩
    else if 194 ≤ b ∧ b ≤ 223 then some ⟨1, 128, 191⟩
    else if b = 224 then some ⟨2, 160, 191⟩
    else if 225 ≤ b ∧ b ≤ 236 then some ⟨2, 128, 191⟩
    else if b = 237 then some ⟨2, 128, 159⟩
    else if 238 ≤ b ∧ b ≤ 239 then some ⟨2, 128, 191⟩
    else if b = 240 then some ⟨3, 144, 191⟩
    else if 241 ≤ b ∧ b ≤ 243 then some ⟨3, 128, 191⟩
    else if b = 244 then some ⟨3, 128, 143⟩
    else none
  else if st.lo ≤ b ∧ b ≤ st.hi then some ⟨st.rem - 1, 128, 191⟩
  else none

def utf8ValidFrom (st : Utf8St) : List Nat → Bool
  | [] => st.rem = 0
  | b :: rest =>
    match utf8Next st b with
    | none => false
    | some st2 => utf8ValidFrom st2 rest

/-- `std::str::from_utf8(bs).is_ok()`. -/
def utf8Valid (bs : List Nat) : Bool := utf8ValidFrom ⟨0, 0, 0⟩ bs

theorem utf8ValidFrom_ascii (bs : List Nat) :
    ∀ h : (∀ b ∈ bs, b ≤ 127), utf8ValidFrom ⟨0, 0, 0⟩ bs = true := by
  induction bs with
  | nil => intro h; rfl
  | cons b rest ih =>
    intro h
    have hb : b ≤ 127 := h b (by simp)
    simp only [utf8ValidFrom, utf8Next, if_pos rfl, hb, if_true]
    exact ih (fun x hx => h x (by simp [hx]))

theorem utf8Valid_ascii (bs : List Nat) (h : ∀ b ∈ bs, b ≤ 127) :
    utf8Valid bs = true := utf8ValidFrom_ascii bs h

/-- `u8::to_ascii_uppercase` (the effect of uppercasing a tag spelling). -/
def asciiUpper (b : Nat) : Nat := if 97 ≤ b ∧ b ≤ 122 then b - 32 else b

theorem hexDigitVal_asciiUpper (b : Nat) :
    hexDigitVal (asciiUpper b) = hexDigitVal b := by
  unfold hexDigitVal asciiUpper
  split_ifs <;>
    first
      | rfl
      | omega
      | (congr 1; omega)
      | (exfalso; omega)

theorem parseHexGo_upper (ds : List Nat) :
    ∀ acc, parseHexGo acc (ds.map asciiUpper) = parseHexGo acc ds := by
  induction ds with
  | nil => intro acc; rfl
  | cons d rest ih =>
    intro acc
    simp only [List.map_cons, parseHexGo, hexDigitVal_asciiUpper]
    cases hexDigitVal d with
    | none => rfl
    | some v =>
      dsimp only
      split_ifs with hov
      · exact ih _
      · rfl

theorem parseHexGo_ascii (ds : List Nat) :
    ∀ acc n, parseHexGo acc ds = some n → ∀ b ∈ ds, b ≤ 127 := by
  induction ds with
  | nil => intro acc n h b hb; simp at hb
  | cons d rest ih =>
    intro acc n h b hb
    simp only [parseHexGo] at h
    cases hv : hexDigitVal d with
    | none => rw [hv] at h; simp at h
    | some v =>
      rw [hv] at h
      dsimp only at h
      split at h
      · rcases List.mem_cons.mp hb with rfl | hbr
        · unfold hexDigitVal at hv
          split_ifs at hv <;> first | omega | simp at hv
        · exact ih _ _ h b hbr
      · simp at h

theorem parseHex_ascii (bs : List Nat) (n : Nat)
    (h : parseHexU64 bs = some n) : ∀ b ∈ bs, b ≤ 127 := by
  match bs with
  | [] => simp [parseHexU64] at h
  | b :: rest =>
    rw [parseHexU64] at h
    by_cases hp : b = 43
    · rw [if_pos hp] at h
      by_cases hre : rest.isEmpty
      · rw [if_pos hre] at h; simp at h
      · rw [if_neg hre] at h
        intro x hx
        rcases List.mem_cons.mp hx with rfl | hxr
        · omega
        · exact parseHexGo_ascii rest 0 n h x hxr
    · rw [if_neg hp] at h
      exact parseHexGo_ascii _ 0 n h

/-!
### Response routing (`dispatch_frame`, `Frame::Response` branch) and
request dispatch UTF-8 handling (`Frame::Request` branch)

The reply-map (`HashMap<u64, oneshot::Sender<Response>>`) is embedded as
an association list from tag number to an abstract slot identifier; a
`oneshot` sender is only ever moved, so a `Nat` id is a faithful stand-in.
-/

abbrev ReplyMap := List (Nat × Nat)

/-- `HashMap::remove`: the removed value and the map without the entry. -/
def mapRemove : ReplyMap → Nat → Option (Nat × ReplyMap)
  | [], _ => none
  | p :: rest, k =>
    if p.1 = k then some (p.2, rest)
    else
      match mapRemove rest k with
      | none => none
      | some (v, m) => some (v, p :: m)

/-- The `Frame::Response` arm of `dispatch_frame`:
`str::from_utf8(&tag).ok().and_then(|s| u64::from_str_radix(s, 16).ok())
.and_then(|n| reply_map.remove(&n)).ok_or(Error::UnmatchedReply)`. -/
def dispatchResponse (tag : List Nat) (map : ReplyMap) :
    Except AmpError (Nat × ReplyMap) :=
  match (if utf8Valid tag then parseHexU64 tag else none) with
  | none => .error .UnmatchedReply
  | some n =>
    match mapRemove map n with
    | none => .error .UnmatchedReply
    | some (slot, m2) => .ok (slot, m2)

/-- The read loop acting on one classified frame.  A request's handler
future begins with `str::from_utf8(&command)?`, surfacing
`Error::InvalidUtf8` (the dispatcher call itself is beyond this model);
a response is routed through the reply-map. -/
def dispatchFrameM (f : Frame) (map : ReplyMap) : Except AmpError ReplyMap :=
  match f with
  | .Request command _ _ =>
    if utf8Valid command then .ok map else .error .InvalidUtf8
  | .Response tag _ =>
    match dispatchResponse tag map with
    | .ok (_, m2) => .ok m2
    | .error e => .error e

/-- The read loop over a sequence of inbound frames: the first error
aborts the loop (`frame?` / `dr?` propagate out of `read_loop`). -/
def readLoopFrames : List Frame → ReplyMap → Except AmpError ReplyMap
  | [], map => .ok map
  | f :: rest, map =>
    match dispatchFrameM f map with
    | .error e => .error e
    | .ok m2 => readLoopFrames rest m2

/-- C8, counterexample to the claim as stated: a response frame whose tag
is the invalid-UTF-8 byte `0xFF` fails with `UnmatchedReply`, not with
`InvalidUtf8` — only the `_command` path produces `InvalidUtf8`. -/
theorem c8_counterexample :
    utf8Valid [255] = false ∧
    dispatchResponse [255] [(1, 7)] = .error .UnmatchedReply ∧
    dispatchResponse [255] [(1, 7)] ≠ .error .InvalidUtf8 := by
  decide

/-- C8 (amended): a non-UTF-8 `_command` aborts the read loop with
`InvalidUtf8`, and a non-UTF-8 response tag also aborts the read loop, but
with `UnmatchedReply`; both are fatal — the loop returns the error without
processing the remaining frames. -/
theorem c8_invalid_utf8_fatal :
    (∀ (command : List Nat) (tag : Option (List Nat)) (fields : RawFrame)
      (rest : List Frame) (map : ReplyMap),
      utf8Valid command = false →
      readLoopFrames (.Request command tag fields :: rest) map =
        .error .InvalidUtf8) ∧
    (∀ (tag : List Nat) (resp : Except WireError RawFrame)
      (rest : List Frame) (map : ReplyMap),
      utf8Valid tag = false →
      readLoopFrames (.Response tag resp :: rest) map =
        .error .UnmatchedReply) := by
  constructor
  · intro command tag fields rest map h
    simp [readLoopFrames, dispatchFrameM, h]
  · intro tag resp rest map h
    simp [readLoopFrames, dispatchFrameM, dispatchResponse, h]

theorem c8_invalid_utf8_fatal_witness :
    utf8Valid [255] = false ∧
    readLoopFrames [.Request [255] none []] [] = .error .InvalidUtf8 ∧
    readLoopFrames [.Response [255] (.ok [])] [(1, 7)] =
      .error .UnmatchedReply :=
  ⟨by decide,
    c8_invalid_utf8_fatal.1 [255] none [] [] [] (by decide),
    c8_invalid_utf8_fatal.2 [255] (.ok []) [] [(1, 7)] (by decide)⟩

/-- C10: reply matching is numeric, not byte-verbatim.  (a) When the tag
bytes are valid UTF-8 and parse as hex number `n`, the outcome is decided
solely by looking `n` up in the reply-map; (b) prefixing a `0` to any
parsable spelling (not starting with the parser-tolerated `+` sign)
changes nothing; (c) uppercasing a parsable spelling changes nothing;
(d) a valid-UTF-8 tag that does not parse as hex fails with
`UnmatchedReply`; (e) a parsed number with no reply-map entry fails with
`UnmatchedReply`. -/
theorem c10_numeric_tag_matching :
    (∀ (tag : List Nat) (map : ReplyMap) (n : Nat),
      utf8Valid tag = true → parseHexU64 tag = some n →
      dispatchResponse tag map =
        match mapRemove map n with
        | none => .error .UnmatchedReply
        | some (slot, m2) => .ok (slot, m2)) ∧
    (∀ (tag : List Nat) (map : ReplyMap) (n : Nat),
      tag.head? ≠ some 43 → parseHexU64 tag = some n →
      dispatchResponse (48 :: tag) map = dispatchResponse tag map) ∧
    (∀ (tag : List Nat) (map : ReplyMap) (n : Nat),
      parseHexU64 tag = some n →
      dispatchResponse (tag.map asciiUpper) map = dispatchResponse tag map) ∧
    (∀ (tag : List Nat) (map : ReplyMap),
      utf8Valid tag = true → parseHexU64 tag = none →
      dispatchResponse tag map = .error .UnmatchedReply) ∧
    (∀ (tag : List Nat) (map : ReplyMap) (n : Nat),
      parseHexU64 tag = some n → mapRemove map n = none →
      dispatchResponse tag map = .error .UnmatchedReply) := by
  have hval : ∀ (tag : List Nat) (n : Nat), parseHexU64 tag = some n →
      utf8Valid tag = true := fun tag n h =>
    utf8Valid_ascii tag (fun b hb => parseHex_ascii tag n h b hb)
  have ha : ∀ (tag : List Nat) (map : ReplyMap) (n : Nat),
      utf8Valid tag = true → parseHexU64 tag = some n →
      dispatchResponse tag map =
        match mapRemove map n with
        | none => .error .UnmatchedReply
        | some (slot, m2) => .ok (slot, m2) := by
    intro tag map n hu hp
    simp only [dispatchResponse, hu, if_true, hp]
  refine ⟨ha, ?_, ?_, ?_, ?_⟩
  · intro tag map n hh hp
    match tag, hh with
    | b :: rest, hh =>
      have hb : ¬ b = 43 := by
        intro hc
        exact hh (by rw [hc]; rfl)
      rw [parseHexU64, if_neg hb] at hp
      have hp2 : parseHexU64 (48 :: b :: rest) = some n := by
        rw [parseHexU64, if_neg (by omega)]
        rw [parseHexGo, show hexDigitVal 48 = some 0 by decide]
        dsimp only
        rw [if_pos (by norm_num)]
        simpa using hp
      rw [ha (48 :: b :: rest) map n (hval _ n hp2) hp2,
        ha (b :: rest) map n (hval _ n (by rw [parseHexU64, if_neg hb]; exact hp))
          (by rw [parseHexU64, if_neg hb]; exact hp)]
  · intro tag map n hp
    have hasc : ∀ b ∈ tag, b ≤ 127 := parseHex_ascii tag n hp
    have hup : ∀ b ∈ tag.map asciiUpper, b ≤ 127 := by
      intro b hb
      obtain ⟨x, hx, rfl⟩ := List.mem_map.mp hb
      have := hasc x hx
      unfold asciiUpper
      split_ifs <;> omega
    have hp3 : parseHexU64 (tag.map asciiUpper) = some n := by
      match tag with
      | [] => simp [parseHexU64] at hp
      | b :: rest =>
        rw [parseHexU64] at hp
        rw [List.map_cons, parseHexU64]
        by_cases hb : b = 43
        · subst hb
          rw [if_pos rfl] at hp
          rw [show asciiUpper 43 = 43 by decide, if_pos rfl]
          cases rest with
          | nil => simp at hp
          | cons c r =>
            rw [if_neg (by simp)] at hp ⊢
            rw [show (c :: r).map asciiUpper = (c :: r).map asciiUpper from rfl]
            rw [parseHexGo_upper (c :: r) 0]
            exact hp
        · have hub : ¬ asciiUpper b = 43 := by
            unfold asciiUpper
            split_ifs <;> omega
          rw [if_neg hb] at hp
          rw [if_neg hub]
          rw [show asciiUpper b :: rest.map asciiUpper =
            ((b :: rest).map asciiUpper) from rfl]
          rw [parseHexGo_upper (b :: rest) 0]
          exact hp
    rw [ha (tag.map asciiUpper) map n (utf8Valid_ascii _ hup) hp3,
      ha tag map n (hval tag n hp) hp]
  · intro tag map hu hp
    simp only [dispatchResponse, hu, if_true, hp]
  · intro tag map n hp hrem
    simp only [dispatchResponse, hval tag n hp, if_true, hp, hrem]

theorem c10_numeric_tag_matching_witness :
    (utf8Valid [49, 102] = true ∧ parseHexU64 [49, 102] = some 31 ∧
      dispatchResponse [49, 102] [(31, 7)] =
        match mapRemove [(31, 7)] 31 with
        | none => .error .UnmatchedReply
        | some (slot, m2) => .ok (slot, m2)) ∧
    dispatchResponse [48, 49, 102] [(31, 7)] =
      dispatchResponse [49, 102] [(31, 7)] ∧
    dispatchResponse ([49, 102].map asciiUpper) [(31, 7)] =
      dispatchResponse [49, 102] [(31, 7)] ∧
    dispatchResponse [43] [(31, 7)] = .error .UnmatchedReply ∧
    dispatchResponse [49, 102] [] = .error .UnmatchedReply :=
  ⟨⟨by decide, by decide,
    c10_numeric_tag_matching.1 [49, 102] [(31, 7)] 31 (by decide) (by decide)⟩,
   c10_numeric_tag_matching.2.1 [49, 102] [(31, 7)] 31 (by decide) (by decide),
   c10_numeric_tag_matching.2.2.1 [49, 102] [(31, 7)] 31 (by decide),
   c10_numeric_tag_matching.2.2.2.1 [43] [(31, 7)] (by decide) (by decide),
   c10_numeric_tag_matching.2.2.2.2 [49, 102] [] 31 (by decide) (by decide)⟩

/-!
### Write-loop tag allocation (`write_loop`)

`seqno: u64` starts at 0; a reply-expecting `WriteCmd::Request` first does
`seqno += 1` (wrapping `u64` arithmetic) and tags the frame with
`format!("{:x}", seqno)`; `WriteCmd::Reply` and no-reply requests leave
the counter untouched.
-/

/-- A write-loop command as far as tag allocation goes. -/
inductive WCmd where
  | reply
  | request (expectsReply : Bool)
deriving DecidableEq, Repr

/-- The `_ask` tags emitted for a command sequence, starting from counter
value `seqno`. -/
def writeLoopTags (seqno : Nat) : List WCmd → List (List Nat)
  | [] => []
  | .reply :: rest => writeLoopTags seqno rest
  | .request false :: rest => writeLoopTags seqno rest
  | .request true :: rest =>
    hexRepr ((seqno + 1) % 2 ^ 64) ::
      writeLoopTags ((seqno + 1) % 2 ^ 64) rest

/-- How many commands in the list expect a reply. -/
def countAsk : List WCmd → Nat
  | [] => 0
  | .request true :: rest => countAsk rest + 1
  | .request false :: rest => countAsk rest
  | .reply :: rest => countAsk rest

theorem writeLoopTags_eq (cmds : List WCmd) :
    ∀ s, writeLoopTags s cmds =
      (List.range (countAsk cmds)).map
        (fun i => hexRepr ((s + i + 1) % 2 ^ 64)) := by
  induction cmds with
  | nil => intro s; rfl
  | cons c rest ih =>
    intro s
    cases c with
    | reply =>
      simp only [writeLoopTags, countAsk]
      exact ih s
    | request e =>
      cases e with
      | false =>
        simp only [writeLoopTags, countAsk]
        exact ih s
      | true =>
        simp only [writeLoopTags, countAsk]
        rw [List.range_succ_eq_map, List.map_cons, List.map_map]
        refine List.cons_eq_cons.mpr ⟨rfl, ?_⟩
        rw [ih ((s + 1) % 2 ^ 64)]
        apply List.map_congr_left
        intro i hi
        simp only [Function.comp_apply]
        exact congrArg hexRepr (by omega)

/-- C7: processing any command sequence with `N` reply-expecting requests
(`N` below the `u64` wrap), the write loop emits exactly the tags
`hex 1, hex 2, …, hex N` in order — one counter increment per
reply-expecting request, none for replies or no-reply requests — and the
tags are pairwise distinct. -/
theorem c7_sequential_tags (cmds : List WCmd)
    (hN : countAsk cmds < 2 ^ 64) :
    writeLoopTags 0 cmds =
      (List.range (countAsk cmds)).map (fun i => hexRepr (i + 1)) ∧
    (writeLoopTags 0 cmds).Nodup := by
  have he : writeLoopTags 0 cmds =
      (List.range (countAsk cmds)).map (fun i => hexRepr (i + 1)) := by
    rw [writeLoopTags_eq cmds 0]
    apply List.map_congr_left
    intro i hi
    have hilt := List.mem_range.mp hi
    exact congrArg hexRepr (by omega)
  refine ⟨he, ?_⟩
  rw [he]
  apply List.Nodup.map_on ?_ (List.nodup_range _)
  intro i hi j hj hij
  have hi2 := List.mem_range.mp hi
  have hj2 := List.mem_range.mp hj
  have := hexRepr_injOn (i + 1) (j + 1) (by omega) (by omega) hij
  omega

theorem c7_sequential_tags_witness :
    countAsk [WCmd.request true, WCmd.reply, WCmd.request false,
      WCmd.request true] < 2 ^ 64 ∧
    (writeLoopTags 0 [WCmd.request true, WCmd.reply, WCmd.request false,
        WCmd.request true] =
      (List.range (countAsk [WCmd.request true, WCmd.reply,
        WCmd.request false, WCmd.request true])).map
          (fun i => hexRepr (i + 1)) ∧
     (writeLoopTags 0 [WCmd.request true, WCmd.reply, WCmd.request false,
        WCmd.request true]).Nodup) :=
  ⟨by decide, c7_sequential_tags _ (by decide)⟩

/-!
### The expect/confirm handshake (`write_loop` ↔ `read_loop`)

An interleaving model of the cited lines.  The write loop, handling one
reply-expecting `WriteCmd::Request`, runs
`expect_tx.send(expect).await?` → `let _ = confirm_rx.await` →
build frame → `output.send(out)`; the read loop's expect branch runs
`reply_map.insert(expect.tag, expect.reply)` →
`let _ = expect.confirm.send(())` with no suspension between them —
modelled as two separate atomic steps so that "confirm only after
insert" is a real ordering.

The error paths are part of the model: `expect_tx.send(...).await?`
fails (aborting the write loop, nothing emitted) when the read loop is
already gone; and `let _ = confirm_rx.await` also completes with `Err`
when the read loop exits (shutdown or EOF) and drops the still-queued
`ExpectReply`, closing the confirm sender — after which the write loop
proceeds to emit the request bytes although no reply-map insert ever
happened.
-/

/-- State of the per-request oneshot confirm channel. -/
inductive ConfirmSt where
  | pending
  | sent
  | closed
deriving DecidableEq, Repr

/-- Write-loop program counter for one reply-expecting request.
`aborted` is the `?`-return of a failed `expect_tx.send`. -/
inductive WPc where
  | start
  | sentExpect
  | confirmed
  | emitted
  | aborted
deriving DecidableEq, Repr

/-- Read-loop position: in its select loop, between insert and confirm,
or exited (receiver ends dropped). -/
inductive RPc where
  | idle
  | inserted
  | dead
deriving DecidableEq, Repr

structure HSState where
  w : WPc
  r : RPc
  expectQueued : Bool
  mapHasEntry : Bool
  confirm : ConfirmSt
deriving DecidableEq, Repr

def HSState.init : HSState := ⟨.start, .idle, false, false, .pending⟩

/-- One interleaved step of the two loops, error paths included. -/
inductive HSStep : HSState → HSState → Prop
  | wSend {r q m c} (h : r ≠ .dead) :
      HSStep ⟨.start, r, q, m, c⟩ ⟨.sentExpect, r, true, m, c⟩
  | wSendFail {q m c} :
      HSStep ⟨.start, .dead, q, m, c⟩ ⟨.aborted, .dead, q, m, c⟩
  | rInsert {w m c} :
      HSStep ⟨w, .idle, true, m, c⟩ ⟨w, .inserted, false, true, c⟩
  | rConfirm {w q m c} :
      HSStep ⟨w, .inserted, q, m, c⟩ ⟨w, .idle, q, m, .sent⟩
  | rExitQueued {w m} :
      HSStep ⟨w, .idle, true, m, .pending⟩ ⟨w, .dead, false, m, .closed⟩
  | rExitIdle {w m c} :
      HSStep ⟨w, .idle, false, m, c⟩ ⟨w, .dead, false, m, c⟩
  | wConfirmOk {r q m} :
      HSStep ⟨.sentExpect, r, q, m, .sent⟩ ⟨.confirmed, r, q, m, .sent⟩
  | wConfirmClosed {r q m} :
      HSStep ⟨.sentExpect, r, q, m, .closed⟩ ⟨.confirmed, r, q, m, .closed⟩
  | wEmit {r q m c} :
      HSStep ⟨.confirmed, r, q, m, c⟩ ⟨.emitted, r, q, m, c⟩

inductive HSReach : HSState → Prop
  | init : HSReach HSState.init
  | step {s t} : HSReach s → HSStep s t → HSReach t

def HSInv (s : HSState) : Prop :=
  (s.confirm = .sent → s.mapHasEntry = true) ∧
  (s.r = .inserted → s.mapHasEntry = true) ∧
  ((s.w = .confirmed ∨ s.w = .emitted) →
    (s.mapHasEntry = true ∨ (s.confirm = .closed ∧ s.r = .dead))) ∧
  (s.confirm = .closed → s.r = .dead)

theorem hsInv_step {s t : HSState} (h : HSInv s) (hs : HSStep s t) :
    HSInv t := by
  obtain ⟨i1, i2, i3, i4⟩ := h
  cases hs with
  | wSend hne =>
    exact ⟨i1, i2, fun hw => absurd hw (by simp), i4⟩
  | wSendFail =>
    exact ⟨i1, i2, fun hw => absurd hw (by simp), i4⟩
  | rInsert =>
    refine ⟨fun _ => rfl, fun _ => rfl, fun _ => Or.inl rfl, fun hc => ?_⟩
    exact absurd (i4 hc) (by simp)
  | rConfirm =>
    refine ⟨fun _ => i2 rfl, fun hr => absurd hr (by simp), fun hw => ?_,
      fun hc => absurd hc (by simp)⟩
    rcases i3 hw with hm | ⟨-, hrd⟩
    · exact Or.inl hm
    · exact absurd hrd (by simp)
  | rExitQueued =>
    exact ⟨fun hc => absurd hc (by simp), fun hr => absurd hr (by simp),
      fun _ => Or.inr ⟨rfl, rfl⟩, fun _ => rfl⟩
  | rExitIdle =>
    refine ⟨i1, fun hr => absurd hr (by simp), fun hw => ?_, fun _ => rfl⟩
    rcases i3 hw with hm | ⟨-, hrd⟩
    · exact Or.inl hm
    · exact absurd hrd (by simp)
  | wConfirmOk =>
    exact ⟨i1, i2, fun _ => Or.inl (i1 rfl),
      fun hc => absurd hc (by simp)⟩
  | wConfirmClosed =>
    exact ⟨fun hc => absurd hc (by simp), i2,
      fun _ => Or.inr ⟨rfl, i4 rfl⟩, fun _ => i4 rfl⟩
  | wEmit =>
    exact ⟨i1, i2, fun _ => i3 (Or.inl rfl), i4⟩

theorem hsReach_inv {s : HSState} (h : HSReach s) : HSInv s := by
  induction h with
  | init =>
    exact ⟨fun hc => absurd hc (by decide), fun hr => absurd hr (by decide),
      fun hw => absurd hw (by decide), fun hc => absurd hc (by decide)⟩
  | step _ hs ih => exact hsInv_step ih hs

/-- C4, counterexample to the claim as stated: after
`expect_tx.send` succeeds the read loop can exit and drop the queued
`ExpectReply`; `let _ = confirm_rx.await;` then completes with `Err`,
which the write loop discards, and it emits the request bytes — a
reachable state has the bytes on the wire with no reply-map entry ever
installed. -/
theorem c4_counterexample :
    HSReach ⟨.emitted, .dead, false, false, .closed⟩ ∧
    (⟨.emitted, .dead, false, false, .closed⟩ : HSState).w = .emitted ∧
    (⟨.emitted, .dead, false, false, .closed⟩ : HSState).mapHasEntry =
      false := by
  refine ⟨?_, rfl, rfl⟩
  have h1 : HSReach ⟨.sentExpect, .idle, true, false, .pending⟩ :=
    .step .init (.wSend (by decide))
  have h2 : HSReach ⟨.sentExpect, .dead, false, false, .closed⟩ :=
    .step h1 .rExitQueued
  have h3 : HSReach ⟨.confirmed, .dead, false, false, .closed⟩ :=
    .step h2 .wConfirmClosed
  exact .step h3 .wEmit

/-- C4 (amended): the read loop sends the confirmation only after
inserting the reply-map entry, so in every reachable state a received
confirmation implies the entry exists; and whenever a reply-expecting
request's bytes have been emitted, either its reply-map entry was
installed beforehand, or the read loop had already exited and dropped
the queued registration (closing the confirm channel) — the only way
bytes reach the wire without an entry. -/
theorem c4_insert_before_wire (s : HSState) (hr : HSReach s) :
    (s.confirm = .sent → s.mapHasEntry = true) ∧
    (s.w = .emitted →
      s.mapHasEntry = true ∨ (s.confirm = .closed ∧ s.r = .dead)) := by
  obtain ⟨i1, -, i3, -⟩ := hsReach_inv hr
  exact ⟨i1, fun hw => i3 (Or.inr hw)⟩

theorem c4_insert_before_wire_witness :
    HSReach ⟨.emitted, .idle, false, true, .sent⟩ ∧
    (⟨.emitted, .idle, false, true, .sent⟩ : HSState).mapHasEntry =
      true := by
  have h1 : HSReach ⟨.sentExpect, .idle, true, false, .pending⟩ :=
    .step .init (.wSend (by decide))
  have h2 : HSReach ⟨.sentExpect, .inserted, false, true, .pending⟩ :=
    .step h1 .rInsert
  have h3 : HSReach ⟨.sentExpect, .idle, false, true, .sent⟩ :=
    .step h2 .rConfirm
  have h4 : HSReach ⟨.confirmed, .idle, false, true, .sent⟩ :=
    .step h3 .wConfirmOk
  have h5 : HSReach ⟨.emitted, .idle, false, true, .sent⟩ :=
    .step h4 .wEmit
  exact ⟨h5, (c4_insert_before_wire _ h5).1 rfl⟩

/-!
### ReplyTicket (`src/server.rs`)

The ticket's wire effect is modelled with the structured responses the
source constructs (`crate::ser::OkResponse { tag, fields }`,
`crate::ser::ErrorResponse { tag, code, description }`); their
serialization is the value serializer's concern.  Rust's affine typing
makes `ok`/`error` consume the ticket, so a ticket's lifecycle is one of:
`ok` then drop of the consumed ticket, `error` then drop, or drop alone.
-/

/-- A reply frame handed to the write loop as `WriteCmd::Reply`. -/
inductive ReplyOut where
  | okResp (tag : List Nat) (fields : RawFrame)
  | errResp (tag : List Nat) (code : String) (description : String)
deriving DecidableEq, Repr

def ReplyOut.tagOf : ReplyOut → List Nat
  | .okResp tag _ => tag
  | .errResp tag _ _ => tag

/-- `ReplyTicket { tag: Option<Bytes>, write_handle }` (handle abstract). -/
structure ReplyTicket where
  tag : Option (List Nat)
deriving DecidableEq, Repr

/-- How a `ReplyTicket::ok`/`error` call ends: `Ok(())`, `Err(_)` from a
`?`, or the panic of `self.tag.take().expect("Tag taken out of
sequence")`. -/
inductive CallOutcome where
  | ok
  | err
  | panicked
deriving DecidableEq, Repr

/-- `ReplyTicket::ok` (src/server.rs lines 51-62): `self.tag.take()`
happens first; on a consumed ticket its `.expect` panics with "Tag taken
out of sequence" and nothing is sent.  Then
`OkResponse { tag, fields }.serialize(&Serializer)?` — the serializer
lives in the absent `crate::ser` module, so its outcome is abstracted as
`serFails` — then `write_handle.send(WriteCmd::Reply(reply)).await?`,
which fails iff the write loop is gone (`channelClosed`).  Either `?`
returns `Err` with the tag already taken and nothing handed to the
write channel.  Result: the messages handed to the write channel, the
consumed ticket, and how the call ended. -/
def ReplyTicket.okRun (serFails channelClosed : Bool) (t : ReplyTicket)
    (reply : RawFrame) : List ReplyOut × ReplyTicket × CallOutcome :=
  match t.tag with
  | some tag =>
    if serFails then ([], ⟨none⟩, .err)
    else if channelClosed then ([], ⟨none⟩, .err)
    else ([.okResp tag reply], ⟨none⟩, .ok)
  | none => ([], ⟨none⟩, .panicked)

/-- `ReplyTicket::error` (src/server.rs lines 64-84): same shape as `ok`
with defaults `UNKNOWN` / `""` and the same two `?` failure points after
the tag is taken. -/
def ReplyTicket.errorRun (serFails channelClosed : Bool) (t : ReplyTicket)
    (code description : Option String) : List ReplyOut × ReplyTicket × CallOutcome :=
  match t.tag with
  | some tag =>
    if serFails then ([], ⟨none⟩, .err)
    else if channelClosed then ([], ⟨none⟩, .err)
    else ([.errResp tag (code.getD "UNKNOWN") (description.getD "")],
      ⟨none⟩, .ok)
  | none => ([], ⟨none⟩, .panicked)

/-!
### Ticket drop with the write channel closed
-/

/-- Outcome of the drop-spawned task
`write_handle.send(WriteCmd::Reply(reply)).await.expect("error on drop")`. -/
inductive DropOutcome where
  | noMsg
  | delivered (m : ReplyOut)
  | panicked
deriving DecidableEq, Repr

/-- `Drop for ReplyTicket` with the channel state made explicit: `send`
fails exactly when the receiver (write loop) is gone, and the spawned
task's `.expect("error on drop")` turns that failure into a panic. -/
def ReplyTicket.dropRunCh (channelClosed : Bool) (t : ReplyTicket) :
    DropOutcome :=
  match t.tag with
  | none => .noMsg
  | some tag =>
    if channelClosed then .panicked
    else .delivered (.errResp tag "UNKNOWN" "Request dropped without reply")

/-- C6, counterexample to the claim as stated: dropping an unused ticket
while the write channel is closed does not silently discard the
auto-reply — the spawned task panics (`expect("error on drop")`). -/
theorem c6_counterexample :
    ReplyTicket.dropRunCh true ⟨some [49]⟩ = .panicked ∧
    DropOutcome.panicked ≠ DropOutcome.noMsg ∧
    ∀ m, DropOutcome.panicked ≠ DropOutcome.delivered m :=
  ⟨rfl, fun h => DropOutcome.noConfusion h,
    fun m h => DropOutcome.noConfusion h⟩

/-- C6 (amended): dropping a ticket whose tag was never taken spawns a
task sending `ErrorResponse { tag, "UNKNOWN",
"Request dropped without reply" }`; it is delivered when the write
channel is open, and when the channel is already closed the auto-reply
is lost and the background task panics via `expect` (the drop itself
returns normally either way); a consumed ticket sends nothing. -/
theorem c6_drop_auto_error (tag : List Nat) (closed : Bool) :
    ReplyTicket.dropRunCh closed ⟨some tag⟩ =
      (if closed then .panicked
       else .delivered
         (.errResp tag "UNKNOWN" "Request dropped without reply")) ∧
    ReplyTicket.dropRunCh closed ⟨none⟩ = .noMsg :=
  ⟨rfl, rfl⟩

/-!
### Ticket lifecycles (src/server.rs lines 51-108)

Rust's affine typing allows exactly one of `ok`, `error`, or neither
before the final (possibly implicit) drop; `ok` and `error` may fail at
their serialize `?` or send `?` after `self.tag.take()`, consuming the
ticket with nothing handed to the write channel.
-/

/-- The three affine uses of a ticket for an inbound tagged request,
with the failure environment of the fallible calls: `serFails` for the
serialize `?`, `channelClosed` for the send `?` and for the drop task's
send. -/
inductive TicketUse where
  | useOk (serFails channelClosed : Bool) (reply : RawFrame)
  | useError (serFails channelClosed : Bool) (code description : Option String)
  | dropOnly (channelClosed : Bool)
deriving DecidableEq, Repr

/-- Messages the drop handler hands to the write channel (the panicking
branch hands over none). -/
def dropMsgs (channelClosed : Bool) (t : ReplyTicket) : List ReplyOut :=
  match ReplyTicket.dropRunCh channelClosed t with
  | .delivered m => [m]
  | _ => []

/-- Every message a ticket for `tag` hands to the write channel over its
life: those of the chosen call, then those of the final drop of the
ticket the call consumed. -/
def ticketLifecycle (tag : List Nat) : TicketUse → List ReplyOut
  | .useOk sf cc reply =>
    (ReplyTicket.okRun sf cc ⟨some tag⟩ reply).1 ++
      dropMsgs cc (ReplyTicket.okRun sf cc ⟨some tag⟩ reply).2.1
  | .useError sf cc code description =>
    (ReplyTicket.errorRun sf cc ⟨some tag⟩ code description).1 ++
      dropMsgs cc
        (ReplyTicket.errorRun sf cc ⟨some tag⟩ code description).2.1
  | .dropOnly cc => dropMsgs cc ⟨some tag⟩

/-- C5, counterexample to the claim as stated: `ok` takes the tag and
then its send `?` fails (the write loop is gone), or its serialize `?`
fails — either way the ticket is consumed, the drop auto-reply is
disabled, and zero wire responses are produced, not exactly one. -/
theorem c5_counterexample :
    ticketLifecycle [49] (.useOk false true []) = [] ∧
    (ticketLifecycle [49] (.useOk false true [])).length ≠ 1 ∧
    ticketLifecycle [49] (.useOk true false []) = [] := by
  refine ⟨rfl, ?_, rfl⟩
  decide

/-- C5 (amended): a ticket for `tag` hands at most one wire response to
the write channel and every response it hands over carries `tag`;
exactly one is produced whenever the chosen call's serialize and send
both succeed, or the ticket is dropped unused with the write channel
open.  `ok`/`error` take the tag before their fallible steps, so a call
that then fails at serialize `?` or send `?` consumes the ticket with
zero responses and no drop auto-reply.  Consumption itself is
unconditional: the returned ticket's tag is `none`, dropping a consumed
ticket sends nothing, and a second `ok` on it panics ("Tag taken out of
sequence") with no message. -/
theorem c5_at_most_one_reply (tag : List Nat) (u : TicketUse)
    (reply : RawFrame) (code description : Option String) (cc : Bool) :
    (ticketLifecycle tag u).length ≤ 1 ∧
    (∀ m ∈ ticketLifecycle tag u, m.tagOf = tag) ∧
    ticketLifecycle tag (.useOk false false reply) = [.okResp tag reply] ∧
    ticketLifecycle tag (.useError false false code description) =
      [.errResp tag (code.getD "UNKNOWN") (description.getD "")] ∧
    ticketLifecycle tag (.dropOnly false) =
      [.errResp tag "UNKNOWN" "Request dropped without reply"] ∧
    (∀ sf, (ReplyTicket.okRun sf cc ⟨some tag⟩ reply).2.1 = ⟨none⟩) ∧
    (∀ sf, (ReplyTicket.errorRun sf cc ⟨some tag⟩ code
      description).2.1 = ⟨none⟩) ∧
    ReplyTicket.dropRunCh cc ⟨none⟩ = .noMsg ∧
    (∀ sf, ReplyTicket.okRun sf cc ⟨none⟩ reply =
      ([], ⟨none⟩, .panicked)) := by
  refine ⟨?_, ?_, ?_, ?_, ?_, ?_, ?_, rfl, ?_⟩
  · cases u with
    | useOk sf cc' r =>
      cases sf <;> cases cc' <;>
        simp [ticketLifecycle, ReplyTicket.okRun, dropMsgs,
          ReplyTicket.dropRunCh]
    | useError sf cc' c d =>
      cases sf <;> cases cc' <;>
        simp [ticketLifecycle, ReplyTicket.errorRun, dropMsgs,
          ReplyTicket.dropRunCh]
    | dropOnly cc' =>
      cases cc' <;>
        simp [ticketLifecycle, dropMsgs, ReplyTicket.dropRunCh]
  · intro m hm
    cases u with
    | useOk sf cc' r =>
      cases sf <;> cases cc' <;>
        simp [ticketLifecycle, ReplyTicket.okRun, dropMsgs,
          ReplyTicket.dropRunCh] at hm <;>
        simp [hm, ReplyOut.tagOf]
    | useError sf cc' c d =>
      cases sf <;> cases cc' <;>
        simp [ticketLifecycle, ReplyTicket.errorRun, dropMsgs,
          ReplyTicket.dropRunCh] at hm <;>
        simp [hm, ReplyOut.tagOf]
    | dropOnly cc' =>
      cases cc' <;>
        simp [ticketLifecycle, dropMsgs, ReplyTicket.dropRunCh] at hm <;>
        simp [hm, ReplyOut.tagOf]
  · rfl
  · rfl
  · rfl
  · intro sf; cases sf <;> cases cc <;> rfl
  · intro sf; cases sf <;> cases cc <;> rfl
  · intro sf; cases sf <;> rfl

/-- The amended C5 invariant at a concrete lifecycle: a successful `ok`
on tag `"1"` with empty fields yields the single response
`okResp "1" []`, whose tag is `"1"`. -/
theorem c5_at_most_one_reply_witness :
    (ticketLifecycle [49] (.useOk false false [])).length ≤ 1 ∧
    ticketLifecycle [49] (.useOk false false []) =
      [.okResp [49] []] ∧
    ReplyOut.tagOf (.okResp [49] []) = [49] := by
  have h := c5_at_most_one_reply [49] (.useOk false false []) [] none none
    false
  exact ⟨h.1, h.2.2.1, h.2.1 (.okResp [49] []) (by decide)⟩

end Amp
